import Mathlib

/-!
Verification of the bleach HTML sanitizer / linkifier (`bleach/__init__.py`).

The development shallowly embeds the pure text-rewriting helpers of the
linkifier (`strip_wrapping_parentheses`, `link_repl`, `email_repl`), the
tree-splicing routine `replace_nodes`, the tree walk `linkify_nodes` and the
`clean`/`linkify` entry points.  External collaborators (the html5lib
fragment parser, tree walker, serializer and the `re` regex engine) are out
of scope of the repository; they are passed in as explicit function
parameters matching the interfaces the code uses, so the theorems quantify
over them wherever possible.  Python strings are modelled as `List Char` in
the character-level helpers and as `String` elsewhere; machine-level details
(unicode normalization in `force_unicode`) are identities on already-decoded
strings and are dropped.
-/

set_option maxRecDepth 4000

namespace Bleach

/-! ## TLD ordering (src lines 47-62)

`TLDS` is the whitespace-split list of known top-level domains; the source
then reverses it in place ("Make sure that .com doesn't get matched by .co
first") before joining it into the alternation of `url_re`. -/

/-- The TLD list exactly as written in the source (src 47-59), in source
order, before the `TLDS.reverse()` call. -/
def TLDS_raw : List String := ["ac", "ad", "ae", "aero", "af", "ag", "ai", "al", "am", "an", "ao", "aq",
  "ar", "arpa", "as", "asia", "at", "au", "aw", "ax", "az", "ba", "bb", "bd",
  "be", "bf", "bg", "bh", "bi", "biz", "bj", "bm", "bn", "bo", "br", "bs",
  "bt", "bv", "bw", "by", "bz", "ca", "cat", "cc", "cd", "cf", "cg", "ch",
  "ci", "ck", "cl", "cm", "cn", "co", "com", "coop", "cr", "cu", "cv", "cx",
  "cy", "cz", "de", "dj", "dk", "dm", "do", "dz", "ec", "edu", "ee", "eg",
  "er", "es", "et", "eu", "fi", "fj", "fk", "fm", "fo", "fr", "ga", "gb",
  "gd", "ge", "gf", "gg", "gh", "gi", "gl", "gm", "gn", "gov", "gp", "gq",
  "gr", "gs", "gt", "gu", "gw", "gy", "hk", "hm", "hn", "hr", "ht", "hu",
  "id", "ie", "il", "im", "in", "info", "int", "io", "iq", "ir", "is", "it",
  "je", "jm", "jo", "jobs", "jp", "ke", "kg", "kh", "ki", "km", "kn", "kp",
  "kr", "kw", "ky", "kz", "la", "lb", "lc", "li", "lk", "lr", "ls", "lt",
  "lu", "lv", "ly", "ma", "mc", "md", "me", "mg", "mh", "mil", "mk", "ml",
  "mm", "mn", "mo", "mobi", "mp", "mq", "mr", "ms", "mt", "mu", "museum", "mv",
  "mw", "mx", "my", "mz", "na", "name", "nc", "ne", "net", "nf", "ng", "ni",
  "nl", "no", "np", "nr", "nu", "nz", "om", "org", "pa", "pe", "pf", "pg",
  "ph", "pk", "pl", "pm", "pn", "post", "pr", "pro", "ps", "pt", "pw", "py",
  "qa", "re", "ro", "rs", "ru", "rw", "sa", "sb", "sc", "sd", "se", "sg",
  "sh", "si", "sj", "sk", "sl", "sm", "sn", "so", "sr", "ss", "st", "su",
  "sv", "sx", "sy", "sz", "tc", "td", "tel", "tf", "tg", "th", "tj", "tk",
  "tl", "tm", "tn", "to", "tp", "tr", "travel", "tt", "tv", "tw", "tz", "ua",
  "ug", "uk", "us", "uy", "uz", "va", "vc", "ve", "vg", "vi", "vn", "vu",
  "wf", "ws", "xn", "xxx", "ye", "yt", "yu", "za", "zm", "zw"]

/-- The TLD list after the in-place `TLDS.reverse()` (src 62); this is the
order in which the alternatives appear in the `url_re` alternation. -/
def TLDS : List String := TLDS_raw.reverse

/-- Boolean list-prefix test over character lists (one alternative of the
regex alternation matches at a position exactly when it is a prefix of the
remaining input). -/
def isPref : List Char -> List Char -> Bool
  | [], _ => true
  | _ :: _, [] => false
  | a :: as, b :: bs => a == b && isPref as bs

/-- First alternative of an ordered regex alternation that matches at the
current position: Python regex alternation tries alternatives left to right
and takes the first that matches. -/
def altFirst (alts : List String) (s : List Char) : Option String :=
  alts.find? (fun t => isPref t.data s)

/-- Claim C7: in the `url_re` TLD alternation, whenever one TLD is a proper
prefix of another, the longer TLD appears earlier (reversing the
alphabetically ordered list puts every extension before its prefix), and
consequently the first alternative matching at a host ending in `com` is
`com` itself, not `co`. -/
theorem c7_tld_order :
    List.Pairwise (fun a b : String => isPref a.data b.data = true -> a = b) TLDS
      /\ altFirst TLDS "com".data = some "com" := by
  constructor
  · decide
  · decide

/-! ## Attribute dictionaries and the callback chain (src 380-385)

A candidate link is a Python dict of attribute name to value; Python dicts
preserve insertion order, `d[k] = v` overwrites in place, `d.pop(k)` removes
the key.  We model them as ordered association lists. -/

/-- An ordered attribute mapping (Python `dict` of `str` to `str`). -/
abbrev Attrs := List (String × String)

/-- `d[k] = v`: overwrite the first binding of `k` in place, else append. -/
def assocSet (d : Attrs) (k v : String) : Attrs :=
  match d with
  | [] => [(k, v)]
  | (k', v') :: rest =>
    if k' == k then (k, v) :: rest else (k', v') :: assocSet rest k v

/-- `d.pop(k)`: the popped value and the dict without the first binding of
`k`.  (The source raises `KeyError` on a missing key; the keys popped by
`link_repl`/`email_repl` are always present, and we return `""` there.) -/
def assocPop (d : Attrs) (k : String) : String × Attrs :=
  match d with
  | [] => ("", [])
  | (k', v') :: rest =>
    if k' == k then (v', rest)
    else
      let (v, rest') := assocPop rest k
      (v, (k', v') :: rest')

/-- A linkify callback: `(attrs, is_new_link) -> attrs | None`. -/
abbrev Callback := Attrs → Bool → Option Attrs

/-- apply_callbacks (src 380-385): sequential application, `None`
short-circuits the chain. -/
def apply_callbacks (cbs : List Callback) (attrs : Attrs) (new : Bool) : Option Attrs :=
  match cbs with
  | [] => some attrs
  | cb :: rest =>
    match cb attrs new with
    | none => none
    | some a => apply_callbacks rest a new

/-- `' '.join('{0!s}="{1!s}"'.format(k, v) ...)` over the remaining
attributes (src 497, 539). -/
def attribsJoin (d : Attrs) : String :=
  String.intercalate " " (d.map fun kv => kv.1 ++ "=\"" ++ kv.2 ++ "\"")

/-! ## strip_wrapping_parentheses (src 338-378) -/

/-- The `for char in reverse_fragment` loop of strip_wrapping_parentheses
(src 364-375).  It walks the reversed fragment; a closing parenthesis is
stripped while fewer than `ob` have been stripped and no other character has
been seen yet (`skip`); every other character is kept.  Kept characters are
consed onto `acc`, so `acc` ends up in original (un-reversed) order, matching
the source's final `newer_frag[::-1]` (src 376). -/
def swpLoop (ob : Nat) : List Char → Nat → Bool → List Char → List Char × Nat
  | [], cb, _, acc => (acc, cb)
  | c :: rest, cb, skip, acc =>
    if c == ')' && cb < ob && !skip then
      swpLoop ob rest (cb + 1) skip acc
    else if c != ')' then
      swpLoop ob rest cb true (c :: acc)
    else
      swpLoop ob rest cb skip (c :: acc)

/-- strip_wrapping_parentheses (src 338-378): returns the fragment stripped
of wrapping parentheses, the count of stripped opening parentheses and the
count of stripped closing parentheses. -/
def strip_wrapping_parentheses (fragment : List Char) : List Char × Nat × Nat :=
  let ob := (fragment.takeWhile (· == '(')).length
  if ob ≠ 0 then
    let res := swpLoop ob (fragment.drop ob).reverse 0 false []
    (res.1, ob, res.2)
  else
    (fragment, 0, 0)

/-! ## link_repl (src 500-543) and its regex helpers (src 74-76) -/

/-- A character of the `[\w-]` class of `proto_re` (ASCII word characters,
underscore, dash). -/
def isWordOrDash (c : Char) : Bool := c.isAlphanum || c == '_' || c == '-'

/-- `re.search(proto_re, url)` as a Bool (src 74, 519): `proto_re` is
`^[\w-]+:/{0,3}` — anchored at the start, the slashes optional, so it
matches exactly when the string starts with a nonempty run of word/dash
characters followed by a colon. -/
def hasProto (url : List Char) : Bool :=
  let pre := url.takeWhile isWordOrDash
  !pre.isEmpty && (url.drop pre.length).head? == some ':'

/-- `re.search(punct_re, url)` (src 76, 515-518): `punct_re` is `([\.,]+)$`,
whose leftmost match is the maximal trailing run of `.`/`,`; `link_repl`
splits the url into the part before that run and the run itself. -/
def punctSplit (url : List Char) : List Char × List Char :=
  let end_ := (url.reverse.takeWhile (fun c => c == '.' || c == ',')).reverse
  (url.take (url.length - end_.length), end_)

/-- `url.rstrip(')')` (src 510). -/
def rstripParen (url : List Char) : List Char :=
  ((url.reverse.dropWhile (· == ')')).reverse)

/-- `if url.startswith('('): url, open_brackets, close_brackets =
strip_wrapping_parentheses(url)` (src 502-505). -/
def linkReplSwp (m : List Char) : List Char × Nat × Nat :=
  if m.head? == some '(' then strip_wrapping_parentheses m else (m, 0, 0)

/-- The clumsy lone-`)` handling (src 506-512): when the url ends in `)` and
contains no `(`, the trailing run of `)` is stripped from the url and added
to the close-bracket count. -/
def linkReplLone (p : List Char × Nat × Nat) : List Char × Nat × Nat :=
  let loneParen := p.1.getLast? == some ')' && !p.1.contains '('
  let url2 := if loneParen then rstripParen p.1 else p.1
  let cb := if loneParen then p.2.2 + (p.1.length - url2.length) else p.2.2
  (url2, p.2.1, cb)

/-- The text pipeline of link_repl before the callbacks run (src 501-522):
wrapping-parenthesis stripping when the match starts with `(`, the clumsy
lone-`)` handling, trailing-punctuation stripping, and the `http://`
prefixing of schemeless matches.  Returns
`(url, open_brackets, close_brackets, end, href)`. -/
def linkReplParts (m : List Char) : List Char × Nat × Nat × List Char × String :=
  let p := linkReplLone (linkReplSwp m)
  let url := (punctSplit p.1).1
  let end_ := (punctSplit p.1).2
  let href := if hasProto url then String.mk url else "http://" ++ String.mk url
  (url, p.2.1, p.2.2, end_, href)

/-- link_repl (src 500-543), taking the callback chain and the matched
substring `match.group(0)`.  On rejection the source rebuilds
`'(' * open_brackets + url + ')' * close_brackets` (src 532) — note the
stripped trailing punctuation `end` is not re-attached there.  On acceptance
it formats `'{0!s}<a href="{1!s}" {2!s}>{3!s}</a>{4!s}{5!s}'` (src 537-543). -/
def link_repl (cbs : List Callback) (m : List Char) : String :=
  let (url, ob, cb, end_, href) := linkReplParts m
  let link : Attrs := [("_text", String.mk url), ("href", href)]
  match apply_callbacks cbs link true with
  | none =>
    String.mk (List.replicate ob '(') ++ String.mk url ++ String.mk (List.replicate cb ')')
  | some link =>
    let (t, link) := assocPop link "_text"
    let (h, link) := assocPop link "href"
    String.mk (List.replicate ob '(') ++ "<a href=\"" ++ h ++ "\" " ++ attribsJoin link
      ++ ">" ++ t ++ "</a>" ++ String.mk end_ ++ String.mk (List.replicate cb ')')

/-! ## email_repl (src 481-498) -/

/-- `match.group(0).replace('"', '&quot;')` (src 482): every double quote of
the matched address is replaced by the entity `&quot;`. -/
def replQuote : List Char → List Char
  | [] => []
  | c :: rest =>
    if c == '"' then '&' :: 'q' :: 'u' :: 'o' :: 't' :: ';' :: replQuote rest
    else c :: replQuote rest

/-- email_repl (src 481-498), taking the callback chain and the matched
address `match.group(0)`. -/
def email_repl (cbs : List Callback) (m : List Char) : String :=
  let addr := String.mk (replQuote m)
  let link : Attrs := [("_text", addr), ("href", "mailto:" ++ addr)]
  match apply_callbacks cbs link true with
  | none => addr
  | some link =>
    let (h, link) := assocPop link "href"
    let (t, link) := assocPop link "_text"
    "<a href=\"" ++ h ++ "\" " ++ attribsJoin link ++ ">" ++ t ++ "</a>"

/-! ## Reconstruction lemmas for the link_repl text pipeline -/

/-- Dropping as many elements as the `takeWhile` kept leaves the
`dropWhile`. -/
theorem drop_length_takeWhile (p : Char → Bool) (l : List Char) :
    l.drop (l.takeWhile p).length = l.dropWhile p := by
  induction l with
  | nil => rfl
  | cons c rest ih =>
    by_cases h : p c
    · simp [List.takeWhile_cons, List.dropWhile_cons, h, ih]
    · simp [List.takeWhile_cons, List.dropWhile_cons, h]

/-- A `takeWhile (· == c)` result is a replicate of `c`. -/
theorem takeWhile_beq_eq_replicate (c : Char) (l : List Char) :
    l.takeWhile (· == c) = List.replicate (l.takeWhile (· == c)).length c := by
  apply List.eq_replicate_of_mem
  intro b hb
  have := List.mem_takeWhile_imp hb
  simpa using this

/-- Splitting a list at its trailing run selected from the right. -/
theorem rev_takeWhile_split (q : Char → Bool) (l : List Char) :
    l = (l.reverse.dropWhile q).reverse ++ (l.reverse.takeWhile q).reverse := by
  conv_lhs => rw [← List.reverse_reverse l,
    ← List.takeWhile_append_dropWhile (p := q) (l := l.reverse)]
  rw [List.reverse_append]

/-- Length bookkeeping for the split above. -/
theorem rev_takeWhile_len (q : Char → Bool) (l : List Char) :
    (l.reverse.takeWhile q).length + (l.reverse.dropWhile q).length = l.length := by
  rw [← List.length_append, List.takeWhile_append_dropWhile, List.length_reverse]

/-- Taking everything but a known suffix yields the known remainder. -/
theorem take_sub_length (x e l : List Char) (h : l = x ++ e) :
    l.take (l.length - e.length) = x := by
  subst h
  simp [List.length_append, List.take_left]

/-- Once `skip` is set, the strip_wrapping_parentheses loop keeps every
remaining character. -/
theorem swpLoop_skip (ob : Nat) (l : List Char) (cb : Nat) (acc : List Char) :
    swpLoop ob l cb true acc = (l.reverse ++ acc, cb) := by
  induction l generalizing acc with
  | nil => simp [swpLoop]
  | cons c rest ih =>
    by_cases h : c = ')'
    · simp [swpLoop, h, ih]
    · simp [swpLoop, h, ih]

/-- Once `ob` closing parentheses have been stripped, the loop keeps every
remaining character. -/
theorem swpLoop_full (ob : Nat) (l : List Char) (cb : Nat) (skip : Bool) (acc : List Char)
    (h : ob ≤ cb) : swpLoop ob l cb skip acc = (l.reverse ++ acc, cb) := by
  induction l generalizing acc skip with
  | nil => simp [swpLoop]
  | cons c rest ih =>
    have hlt : ¬ cb < ob := Nat.not_lt.mpr h
    by_cases hc : c = ')'
    · simp [swpLoop, hc, hlt, ih]
    · simp [swpLoop, hc, hlt, ih]

/-- The loop strips some all-`)` prefix of its (reversed) input and keeps the
rest in original order. -/
theorem swpLoop_recon (ob : Nat) (l : List Char) (cb : Nat) (acc : List Char) :
    ∃ k, k ≤ l.length ∧ swpLoop ob l cb false acc = ((l.drop k).reverse ++ acc, cb + k) ∧
      ∀ c ∈ l.take k, c = ')' := by
  induction l generalizing cb acc with
  | nil => exact ⟨0, by simp [swpLoop]⟩
  | cons c rest ih =>
    by_cases hc : c = ')'
    · by_cases hcb : cb < ob
      · obtain ⟨k, hk, heq, hall⟩ := ih (cb + 1) acc
        refine ⟨k + 1, by simpa using hk, ?_, ?_⟩
        · simp only [swpLoop, hc, hcb]
          simp [heq]
          omega
        · intro x hx
          rw [List.take_succ_cons] at hx
          rcases List.mem_cons.mp hx with hx | hx
          · exact hx ▸ hc
          · exact hall x hx
      · refine ⟨0, by simp, ?_, by simp⟩
        have := swpLoop_full ob (c :: rest) cb false acc (Nat.not_lt.mp hcb)
        simpa using this
    · refine ⟨0, by simp, ?_, by simp⟩
      simp only [swpLoop, hc]
      simp [hc, swpLoop_skip]

/-- strip_wrapping_parentheses reconstruction (src 338-378): the original
fragment is the stripped fragment wrapped in exactly the reported counts of
parentheses. -/
theorem swp_recon (fragment f : List Char) (ob cb : Nat)
    (h : strip_wrapping_parentheses fragment = (f, ob, cb)) :
    fragment = List.replicate ob '(' ++ f ++ List.replicate cb ')' := by
  unfold strip_wrapping_parentheses at h
  by_cases h0 : (fragment.takeWhile (· == '(')).length ≠ 0
  · rw [if_pos h0] at h
    obtain ⟨k, hk, heq, hall⟩ :=
      swpLoop_recon (fragment.takeWhile (· == '(')).length
        (fragment.drop (fragment.takeWhile (· == '(')).length).reverse 0 []
    rw [heq] at h
    cases h
    have hA : fragment = List.replicate (fragment.takeWhile (· == '(')).length '('
        ++ fragment.drop (fragment.takeWhile (· == '(')).length := by
      conv_lhs => rw [← List.takeWhile_append_dropWhile (p := (· == '(')) (l := fragment)]
      rw [← drop_length_takeWhile (· == '(') fragment]
      congr 1
      exact takeWhile_beq_eq_replicate '(' fragment
    have hB : fragment.drop (fragment.takeWhile (· == '(')).length =
        ((fragment.drop (fragment.takeWhile (· == '(')).length).reverse.drop k).reverse
          ++ List.replicate k ')' := by
      conv_lhs => rw [← List.reverse_reverse
        (fragment.drop (fragment.takeWhile (· == '(')).length),
        ← List.take_append_drop k
          (fragment.drop (fragment.takeWhile (· == '(')).length).reverse]
      rw [List.reverse_append]
      congr 1
      have hlen : ((fragment.drop (fragment.takeWhile (· == '(')).length).reverse.take k).length
          = k := List.length_take_of_le hk
      have hrep := List.eq_replicate_of_mem
        (l := (fragment.drop (fragment.takeWhile (· == '(')).length).reverse.take k)
        (a := ')') hall
      rw [hlen] at hrep
      rw [hrep, List.reverse_replicate]
    conv_lhs => rw [hA, hB]
    simp
  · rw [if_neg h0] at h
    cases h
    simp

/-- `url.rstrip(')')` reconstruction (src 510-511). -/
theorem rstrip_recon (url : List Char) :
    url = rstripParen url ++ List.replicate (url.length - (rstripParen url).length) ')' := by
  conv_lhs => rw [rev_takeWhile_split (fun c => c == ')') url]
  congr 1
  have hrep := takeWhile_beq_eq_replicate ')' url.reverse
  have hlen := rev_takeWhile_len (fun c => c == ')') url
  rw [hrep, List.reverse_replicate]
  congr 1
  simp only [rstripParen, List.length_reverse]
  omega

/-- punctSplit reconstruction (src 515-518): the url is the stem followed by
the stripped trailing punctuation run. -/
theorem punctSplit_recon (url stem e : List Char) (h : punctSplit url = (stem, e)) :
    url = stem ++ e ∧ ∀ c ∈ e, c = '.' ∨ c = ',' := by
  unfold punctSplit at h
  cases h
  have hsplit := rev_takeWhile_split (fun c => c == '.' || c == ',') url
  have htake := take_sub_length _ _ _ hsplit
  constructor
  · rw [htake]
    exact hsplit
  · intro c hc
    have := List.mem_takeWhile_imp (List.mem_reverse.mp hc)
    simpa using this

/-! ## Claims C3 and C6: link_repl on rejection and on acceptance -/

/-- A callback chain that rejects every candidate link. -/
def rejectAll : Callback := fun _ _ => none

/-- Stage-1 reconstruction. -/
theorem linkReplSwp_recon (m f : List Char) (ob cb : Nat)
    (h : linkReplSwp m = (f, ob, cb)) :
    m = List.replicate ob '(' ++ f ++ List.replicate cb ')' := by
  unfold linkReplSwp at h
  by_cases hh : (m.head? == some '(') = true
  · rw [if_pos hh] at h
    exact swp_recon m f ob cb h
  · rw [if_neg hh] at h
    cases h
    simp

/-- Stage-2 reconstruction. -/
theorem linkReplLone_recon (f f' : List Char) (ob cb ob' cb' : Nat)
    (h : linkReplLone (f, ob, cb) = (f', ob', cb')) :
    ob' = ob ∧ ∃ d, f = f' ++ List.replicate d ')' ∧ cb' = cb + d := by
  unfold linkReplLone at h
  by_cases hl : (f.getLast? == some ')' && !f.contains '(') = true
  · simp only [hl, if_true, ite_true] at h
    cases h
    exact ⟨rfl, f.length - (rstripParen f).length, rstrip_recon f, rfl⟩
  · simp only [hl, if_false, Bool.false_eq_true, ite_false] at h
    cases h
    exact ⟨rfl, 0, by simp, rfl⟩

/-- The full pipeline reconstruction: the matched substring equals the
stripped opening parentheses, the stem, the stripped punctuation run and the
stripped closing parentheses, in that order. -/
theorem linkReplParts_recon (m url : List Char) (ob cb : Nat) (end_ : List Char)
    (href : String) (h : linkReplParts m = (url, ob, cb, end_, href)) :
    m = List.replicate ob '(' ++ url ++ end_ ++ List.replicate cb ')' := by
  rcases h1 : linkReplSwp m with ⟨f, ob1, cb1⟩
  rcases h2 : linkReplLone (f, ob1, cb1) with ⟨f', ob2, cb2⟩
  rcases hps : punctSplit f' with ⟨stem, e⟩
  simp only [linkReplParts, h1, h2, hps] at h
  cases h
  have hm := linkReplSwp_recon m f ob1 cb1 h1
  obtain ⟨hob, d, hf, hcb⟩ := linkReplLone_recon f f' ob1 cb1 ob cb h2
  obtain ⟨hstem, _⟩ := punctSplit_recon f' url end_ hps
  subst hob hcb
  rw [hm, hf, hstem]
  simp only [List.append_assoc, List.replicate_add]
  simp
  omega

/-- Claim C3 counterexample: for the matched substring `example.com.` and a
callback chain that rejects the candidate, link_repl returns
`example.com` — not the original matched substring: the stripped trailing
punctuation run is dropped (src 532 rebuilds only brackets and url). -/
theorem c3_reject_counterexample :
    link_repl [rejectAll] "example.com.".data = "example.com" ∧
      ("example.com" : String) ≠ "example.com." := by
  constructor
  · rfl
  · decide

/-- Claim C3 (amended): when a callback rejects a detected URL candidate,
link_repl returns the matched substring with the stripped wrapping
parentheses restored but WITHOUT the stripped trailing `.`/`,` punctuation
run: the result is `'('*ob ++ url ++ ')'*cb` while the original match was
`'('*ob ++ url ++ end ++ ')'*cb`. -/
theorem c3_reject_amended (cbs : List Callback) (m url : List Char) (ob cb : Nat)
    (end_ : List Char) (href : String)
    (hparts : linkReplParts m = (url, ob, cb, end_, href))
    (hrej : apply_callbacks cbs [("_text", String.mk url), ("href", href)] true = none) :
    (link_repl cbs m).data
        = List.replicate ob '(' ++ url ++ List.replicate cb ')' ∧
      m = List.replicate ob '(' ++ url ++ end_ ++ List.replicate cb ')' := by
  constructor
  · simp only [link_repl, hparts, hrej]
    simp [String.data_append]
  · exact linkReplParts_recon m url ob cb end_ href hparts

/-- Witness for c3_reject_amended at the concrete match `(example.com.)`
with an always-rejecting callback chain. -/
theorem c3_reject_witness :
    (link_repl [rejectAll] "(example.com.)".data).data
        = List.replicate 1 '(' ++ "example.com".data ++ List.replicate 1 ')' ∧
      "(example.com.)".data
        = List.replicate 1 '(' ++ "example.com".data ++ ".".data ++ List.replicate 1 ')' :=
  c3_reject_amended [rejectAll] "(example.com.)".data "example.com".data 1 1
    ".".data "http://example.com" rfl rfl

/-- The href computed by the pipeline: the url itself when it carries an
explicit scheme, else the url prefixed with `http://` (src 519-522). -/
theorem linkReplParts_href (m url : List Char) (ob cb : Nat) (end_ : List Char)
    (href : String) (h : linkReplParts m = (url, ob, cb, end_, href)) :
    href = if hasProto url then String.mk url else "http://" ++ String.mk url := by
  rcases h1 : linkReplSwp m with ⟨f, ob1, cb1⟩
  rcases h2 : linkReplLone (f, ob1, cb1) with ⟨f', ob2, cb2⟩
  rcases hps : punctSplit f' with ⟨stem, e⟩
  simp only [linkReplParts, h1, h2, hps] at h
  cases h
  rfl

/-- Claim C6: for an accepted URL match whose callback chain leaves the
`_text` and `href` entries intact, link_repl produces the anchor built from
the surviving attributes: the href is the (possibly `http://`-prefixed)
stem, the visible text is the original schemeless stem, the stripped
punctuation run follows `</a>` and the stripped closing parentheses come
last. -/
theorem c6_accepted (cbs : List Callback) (m url : List Char) (ob cb : Nat)
    (end_ : List Char) (href : String) (d : Attrs)
    (hparts : linkReplParts m = (url, ob, cb, end_, href))
    (hacc : apply_callbacks cbs [("_text", String.mk url), ("href", href)] true = some d)
    (htext : (assocPop d "_text").1 = String.mk url)
    (hhref : (assocPop (assocPop d "_text").2 "href").1 = href) :
    link_repl cbs m
        = String.mk (List.replicate ob '(') ++ "<a href=\"" ++ href ++ "\" "
          ++ attribsJoin (assocPop (assocPop d "_text").2 "href").2 ++ ">"
          ++ String.mk url ++ "</a>" ++ String.mk end_
          ++ String.mk (List.replicate cb ')') ∧
      (hasProto url = false → href = "http://" ++ String.mk url) ∧
      (hasProto url = true → href = String.mk url) := by
  have hhr := linkReplParts_href m url ob cb end_ href hparts
  refine ⟨?_, ?_, ?_⟩
  · simp only [link_repl, hparts, hacc]
    rw [← htext, ← hhref]
  · intro hfalse
    rw [hhr, if_neg (by simp [hfalse])]
  · intro htrue
    rw [hhr, if_pos htrue]

/-- Witness for c6_accepted: an empty callback chain accepts the match
`example.com.` unchanged; the anchor targets `http://example.com`, shows
`example.com`, and the stripped `.` follows the closing `</a>`. -/
theorem c6_accepted_witness :
    link_repl [] "example.com.".data
        = String.mk (List.replicate 0 '(') ++ "<a href=\"" ++ "http://example.com" ++ "\" "
          ++ attribsJoin (assocPop (assocPop
              [("_text", String.mk "example.com".data),
               ("href", "http://example.com")] "_text").2 "href").2 ++ ">"
          ++ String.mk "example.com".data ++ "</a>" ++ String.mk ".".data
          ++ String.mk (List.replicate 0 ')') ∧
      (hasProto "example.com".data = false →
        ("http://example.com" : String) = "http://" ++ String.mk "example.com".data) ∧
      (hasProto "example.com".data = true →
        ("http://example.com" : String) = String.mk "example.com".data) :=
  c6_accepted [] "example.com.".data "example.com".data 0 0 ".".data
    "http://example.com" [("_text", String.mk "example.com".data),
      ("href", "http://example.com")] rfl rfl rfl rfl

/-! ## Claim C10: email_repl quote handling -/

/-- The quote replacement leaves no raw double quote in the address. -/
theorem replQuote_no_quote (l : List Char) : '"' ∉ replQuote l := by
  induction l with
  | nil => simp [replQuote]
  | cons c rest ih =>
    by_cases h : (c == '"') = true
    · simp only [replQuote, if_pos h, List.mem_cons]
      push_neg
      exact ⟨by decide, by decide, by decide, by decide, by decide, by decide, ih⟩
    · simp only [replQuote, if_neg h, List.mem_cons]
      push_neg
      refine ⟨?_, ih⟩
      intro heq
      subst heq
      exact h (by decide)

/-- Claim C10: for an accepted email match whose callback chain leaves the
`href` and `_text` entries intact, the address embedded in the generated
anchor (both as the `mailto:` href value and as the visible text) is the
matched address with every `"` replaced by `&quot;`, and contains no raw
double quote. -/
theorem c10_email_quote (cbs : List Callback) (m : List Char) (d : Attrs)
    (hacc : apply_callbacks cbs
      [("_text", String.mk (replQuote m)), ("href", "mailto:" ++ String.mk (replQuote m))]
      true = some d)
    (hhref : (assocPop d "href").1 = "mailto:" ++ String.mk (replQuote m))
    (htext : (assocPop (assocPop d "href").2 "_text").1 = String.mk (replQuote m)) :
    '"' ∉ (String.mk (replQuote m)).data ∧
      '"' ∉ ("mailto:" ++ String.mk (replQuote m)).data ∧
      email_repl cbs m
        = "<a href=\"" ++ ("mailto:" ++ String.mk (replQuote m)) ++ "\" "
          ++ attribsJoin (assocPop (assocPop d "href").2 "_text").2 ++ ">"
          ++ String.mk (replQuote m) ++ "</a>" := by
  refine ⟨replQuote_no_quote m, ?_, ?_⟩
  · rw [String.data_append]
    intro hmem
    rcases List.mem_append.mp hmem with h1 | h1
    · exact absurd h1 (by decide)
    · exact replQuote_no_quote m h1
  · simp only [email_repl, hacc]
    rw [← hhref, ← htext]

/-- Witness for c10_email_quote at the quoted-local-part address
`"a"@b.cd` with an empty callback chain. -/
theorem c10_email_quote_witness :
    '"' ∉ (String.mk (replQuote "\"a\"@b.cd".data)).data ∧
      '"' ∉ ("mailto:" ++ String.mk (replQuote "\"a\"@b.cd".data)).data ∧
      email_repl [] "\"a\"@b.cd".data
        = "<a href=\"" ++ ("mailto:" ++ String.mk (replQuote "\"a\"@b.cd".data)) ++ "\" "
          ++ attribsJoin (assocPop (assocPop
              [("_text", String.mk (replQuote "\"a\"@b.cd".data)),
               ("href", "mailto:" ++ String.mk (replQuote "\"a\"@b.cd".data))] "href").2
              "_text").2 ++ ">"
          ++ String.mk (replQuote "\"a\"@b.cd".data) ++ "</a>" :=
  c10_email_quote [] "\"a\"@b.cd".data
    [("_text", String.mk (replQuote "\"a\"@b.cd".data)),
     ("href", "mailto:" ++ String.mk (replQuote "\"a\"@b.cd".data))] rfl rfl rfl

/-! ## The element tree (etree) model

html5lib's `parseFragment` produces an etree tree: each element has a
namespaced tag, an attribute mapping, leading `text`, a child list and
`tail` text (text after the element, owned by the parent's text stream).
Python compares etree elements by identity and `_seen` is an identity set;
we give every node a numeric id (`eid`) and model `_seen` as a set of ids,
with the parser handing out fresh ids. -/

/-- Python truthiness of an optional string: `None` and `''` are falsy. -/
def optFalsy : Option String → Bool
  | none => true
  | some s => s.isEmpty

/-- An etree element/fragment node. -/
inductive Elem where
  | mk (eid : Nat) (tag : String) (attrs : Attrs) (text : Option String)
       (children : List Elem) (tail : Option String)

instance : Inhabited Elem := ⟨Elem.mk 0 "" [] none [] none⟩

def Elem.eid : Elem → Nat
  | .mk i _ _ _ _ _ => i

def Elem.tag : Elem → String
  | .mk _ t _ _ _ _ => t

def Elem.attrs : Elem → Attrs
  | .mk _ _ a _ _ _ => a

def Elem.text : Elem → Option String
  | .mk _ _ _ tx _ _ => tx

def Elem.children : Elem → List Elem
  | .mk _ _ _ _ cs _ => cs

def Elem.tail : Elem → Option String
  | .mk _ _ _ _ _ tl => tl

/-- `ETREE_TAG` (src 88): the tag name with the xhtml namespace as returned
by etree's `Element.tag`. -/
def etreeTag (x : String) : String := "\x7bhttp://www.w3.org/1999/xhtml\x7d" ++ x

/-- `node.text = (node.text or '') + s` (used via `tree.text = ...` at
src 316, 332). -/
def Elem.appendText : Elem → String → Elem
  | .mk i t a tx cs tl, s => .mk i t a (some (tx.getD "" ++ s)) cs tl

/-- `node.tail = (node.tail or '') + s` (src 318, 334). -/
def Elem.appendTail : Elem → String → Elem
  | .mk i t a tx cs tl, s => .mk i t a tx cs (some (tl.getD "" ++ s))

def Elem.setText : Elem → Option String → Elem
  | .mk i t a _ cs tl, tx => .mk i t a tx cs tl

def Elem.setTail : Elem → Option String → Elem
  | .mk i t a tx cs _, tl => .mk i t a tx cs tl

def Elem.setChildren : Elem → List Elem → Elem
  | .mk i t a tx _ tl, cs => .mk i t a tx cs tl

def Elem.setAttrs : Elem → Attrs → Elem
  | .mk i t _ tx cs tl, a => .mk i t a tx cs tl

/-- `tree.insert(i, x)`: Python's `list.insert` clamps an out-of-range
index to the end. -/
def pyInsert (l : List Elem) (i : Nat) (x : Elem) : List Elem :=
  l.take i ++ x :: l.drop i

def Elem.insertChild (e : Elem) (i : Nat) (x : Elem) : Elem :=
  e.setChildren (pyInsert e.children i x)

/-- Apply `f` to the `i`-th child, as Python's `tree[i].tail = ...` style
in-place updates do.  (Out of range would raise IndexError in Python; the
source only uses in-range indices and we leave the tree unchanged.) -/
def Elem.modChild (e : Elem) (i : Nat) (f : Elem → Elem) : Elem :=
  match e.children.get? i with
  | some c => e.setChildren (e.children.set i (f c))
  | none => e

/-- `tree.remove(node)`: removes the first child identical to `node`
(etree element equality is identity; we compare ids). -/
def removeById (i : Nat) : List Elem → List Elem
  | [] => []
  | c :: rest => if c.eid == i then rest else c :: removeById i rest

def Elem.removeChild (e : Elem) (i : Nat) : Elem :=
  e.setChildren (removeById i e.children)

mutual
/-- The concatenated text content of a node: its leading text and the text
of its subtree, each child followed by its tail. -/
def contentE : Elem → String
  | .mk _ _ _ tx cs _ => tx.getD "" ++ contentList cs

/-- Text content of a child list (each child's content followed by its
tail). -/
def contentList : List Elem → String
  | [] => ""
  | c :: rest => contentE c ++ c.tail.getD "" ++ contentList rest
end

mutual
/-- Nesting depth of a tree (a childless node has height 1). -/
def heightE : Elem → Nat
  | .mk _ _ _ _ cs _ => 1 + heightList cs

/-- Maximum height of a list of trees. -/
def heightList : List Elem → Nat
  | [] => 0
  | c :: rest => max (heightE c) (heightList rest)
end

/-! ## Walk state and external collaborators of the linkifier -/

/-- Scratch state of one linkify call: the identity seen-set, the fresh-id
counter for parsed fragments, plus two ghost observers that do not influence
control flow: the maximum recursion depth reached by `linkify_nodes` and the
number of `apply_callbacks` invocations made by the walk. -/
structure WalkSt where
  seen : List Nat
  nextId : Nat
  maxDepth : Nat
  cbCalls : Nat

/-- The external collaborators used by `linkify` (spec section 6): the
html5lib fragment parser (threading the fresh-id counter), the serializer,
and the composite text substituters `re.sub(email_re, email_repl, ·)` and
`re.sub(url_re, link_repl, ·)` built from the external `re` engine. -/
structure LinkifyEnv where
  parseFrag : Nat → String → Elem × Nat
  render : Elem → String
  subEmail : String → String
  subUrl : String → String

/-- Options of `linkify` (src 271-272). -/
structure LinkifyOpts where
  skipPre : Bool
  parseEmail : Bool

/-- The insertion loop of replace_nodes (src 320-325): the fragment's
top-level elements go into the tree at consecutive positions starting at
`index`; every inserted `<a>` element is added to the seen-set. -/
def insertLoop (tree : Elem) : List Elem → Nat → Nat → WalkSt → Elem × Nat × WalkSt
  | [], _, count, st => (tree, count, st)
  | n :: rest, index, count, st =>
    let st := if n.tag == etreeTag "a" then { st with seen := n.eid :: st.seen } else st
    insertLoop (tree.insertChild (index + count) n) rest index (count + 1) st

/-- The insertion half of replace_nodes (src 312-325): parse `new_frag`,
splice the fragment's leading text into the tree's text stream at `index`
(tree text when `index == 0`, else the tail of the preceding sibling), then
insert the fragment's elements at `index`. -/
def replace_nodes_ins (env : LinkifyEnv) (tree : Elem) (new_frag : String)
    (index : Nat) (st : WalkSt) : Elem × Nat × WalkSt :=
  let pf := env.parseFrag st.nextId new_frag
  let new_tree := pf.1
  let st := { st with nextId := pf.2 }
  let tree :=
    if !optFalsy new_tree.text then
      if index == 0 then tree.appendText (new_tree.text.getD "")
      else tree.modChild (index - 1) (fun c => c.appendTail (new_tree.text.getD ""))
    else tree
  insertLoop tree new_tree.children index 0 st

/-- replace_nodes (src 296-336): the insertion half above and, when `node`
is given, the removal half (src 327-335) that first saves the removed
node's tail onto the preceding text-stream position (tree text when
`index + count == 0`, else the tail of the node at `index + count - 1`) and
then removes the node.  Returns the number of inserted nodes. -/
def replace_nodes (env : LinkifyEnv) (tree : Elem) (new_frag : String)
    (node : Option Elem) (index : Nat) (st : WalkSt) : Elem × Nat × WalkSt :=
  let r := replace_nodes_ins env tree new_frag index st
  let tree := r.1
  let count := r.2.1
  let st := r.2.2
  match node with
  | none => (tree, count, st)
  | some nd =>
    let tree :=
      if !optFalsy nd.tail then
        if index + count == 0 then tree.appendText (nd.tail.getD "")
        else tree.modChild (index + count - 1) (fun c => c.appendTail (nd.tail.getD ""))
      else tree
    (tree.removeChild nd.eid, count, st)

/-! ## Claim C8: replace_nodes never loses text -/

/-- Setting at the index right past a known prefix replaces the element
there. -/
theorem set_at_length (A : List Elem) (p : Elem) (B : List Elem) (x : Elem) :
    (A ++ p :: B).set A.length x = A ++ x :: B := by
  induction A with
  | nil => rfl
  | cons a rest ih => simp [List.set_cons_succ, ih]

/-- Lookup at the index right past a known prefix. -/
theorem get?_at_length (A : List Elem) (p : Elem) (B : List Elem) :
    (A ++ p :: B).get? A.length = some p := by
  induction A with
  | nil => rfl
  | cons a rest ih => simpa using ih

/-- Text content distributes over list append. -/
theorem contentList_append (a b : List Elem) :
    contentList (a ++ b) = contentList a ++ contentList b := by
  induction a with
  | nil => simp [contentList]
  | cons c rest ih => simp [contentList, ih, String.append_assoc]

theorem contentE_appendTail (p : Elem) (s : String) :
    contentE (p.appendTail s) = contentE p := by
  cases p; rfl

theorem tail_appendTail (p : Elem) (s : String) :
    (p.appendTail s).tail.getD "" = p.tail.getD "" ++ s := by
  cases p with
  | mk i t a tx cs tl => cases tl <;> simp [Elem.appendTail, Elem.tail]

theorem contentE_appendText (e : Elem) (s : String) :
    contentE (e.appendText s) = e.text.getD "" ++ s ++ contentList e.children := by
  cases e with
  | mk i t a tx cs tl =>
    cases tx <;> simp [Elem.appendText, contentE, Elem.text, Elem.children,
      String.append_assoc]

theorem children_appendText (e : Elem) (s : String) :
    (e.appendText s).children = e.children := by
  cases e; rfl

theorem text_appendText (e : Elem) (s : String) :
    (e.appendText s).text = some (e.text.getD "" ++ s) := by
  cases e; rfl

theorem children_setChildren (e : Elem) (cs : List Elem) :
    (e.setChildren cs).children = cs := by
  cases e; rfl

theorem text_setChildren (e : Elem) (cs : List Elem) :
    (e.setChildren cs).text = e.text := by
  cases e; rfl

theorem setChildren_self (e : Elem) : e.setChildren e.children = e := by
  cases e; rfl

theorem setChildren_setChildren (e : Elem) (a b : List Elem) :
    (e.setChildren a).setChildren b = e.setChildren b := by
  cases e; rfl

theorem contentE_eq (e : Elem) :
    contentE e = e.text.getD "" ++ contentList e.children := by
  cases e; rfl

theorem contentE_setChildren (e : Elem) (cs : List Elem) :
    contentE (e.setChildren cs) = e.text.getD "" ++ contentList cs := by
  cases e; rfl

/-- The first eid-match is removed; a prefix without the id is kept. -/
theorem removeById_append (i : Nat) (A : List Elem) (nd : Elem) (B : List Elem)
    (hA : ∀ c ∈ A, (c.eid == i) = false) (hnd : (nd.eid == i) = true) :
    removeById i (A ++ nd :: B) = A ++ B := by
  induction A with
  | nil => simp [removeById, hnd]
  | cons a rest ih =>
    have ha := hA a (List.mem_cons_self a rest)
    simp only [List.cons_append, removeById, ha]
    simp only [Bool.false_eq_true, if_false]
    exact congrArg (fun l => a :: l) (ih (fun c hc => hA c (List.mem_cons_of_mem a hc)))

/-- The insertion loop splices the fragment children into the child list at
`index + count` and reports the number of insertions. -/
theorem insertLoop_spec (cs : List Elem) (tree : Elem) (index count : Nat) (st : WalkSt)
    (h : index + count ≤ tree.children.length) :
    (insertLoop tree cs index count st).1
        = tree.setChildren (tree.children.take (index + count) ++ cs
            ++ tree.children.drop (index + count)) ∧
      (insertLoop tree cs index count st).2.1 = count + cs.length := by
  induction cs generalizing tree count st with
  | nil =>
    simp [insertLoop, List.take_append_drop, setChildren_self]
  | cons n rest ih =>
    have hlen : (tree.insertChild (index + count) n).children.length
        = tree.children.length + 1 := by
      simp [Elem.insertChild, pyInsert, children_setChildren, List.length_take,
        List.length_drop]
      omega
    have hle : index + (count + 1) ≤ (tree.insertChild (index + count) n).children.length := by
      omega
    obtain ⟨h1, h2⟩ := ih (tree.insertChild (index + count) n) (count + 1)
      (if n.tag == etreeTag "a" then { st with seen := n.eid :: st.seen } else st) hle
    have hidx : index + (count + 1) = (tree.children.take (index + count)).length + 1 := by
      simp [List.length_take]
      omega
    have htk : (tree.insertChild (index + count) n).children.take (index + (count + 1))
        = tree.children.take (index + count) ++ [n] := by
      simp only [Elem.insertChild, children_setChildren, pyInsert]
      rw [hidx, List.take_append]
      simp
    have hdr : (tree.insertChild (index + count) n).children.drop (index + (count + 1))
        = tree.children.drop (index + count) := by
      simp only [Elem.insertChild, children_setChildren, pyInsert]
      rw [hidx, List.drop_append]
      simp
    refine ⟨?_, ?_⟩
    · simp only [insertLoop]
      rw [h1, htk, hdr]
      simp only [Elem.insertChild, setChildren_setChildren]
      simp [List.append_assoc]
    · simp only [insertLoop]
      rw [h2]
      simp [List.length_cons]
      omega

theorem eid_appendTail (p : Elem) (s : String) : (p.appendTail s).eid = p.eid := by
  cases p; rfl

theorem text_modChild (e : Elem) (i : Nat) (f : Elem → Elem) :
    (e.modChild i f).text = e.text := by
  unfold Elem.modChild
  cases e.children.get? i
  · rfl
  · exact text_setChildren _ _

theorem optFalsy_getD (o : Option String) (h : optFalsy o = true) : o.getD "" = "" := by
  cases o with
  | none => rfl
  | some s =>
    simp only [optFalsy] at h
    simpa [String.isEmpty_iff] using h

/-- The shared `text or tail` splice step of replace_nodes (src 314-318 and
330-334): appending `s` at text-stream position `index` of a tree whose
children split as `A ++ B` with `A.length = index` extends the text stream
right after `A`'s content, leaves `B` and all element ids untouched. -/
theorem textAt_spec (tree T : Elem) (A B : List Elem) (s : String)
    (hch : tree.children = A ++ B)
    (hT : T = if A.length == 0 then tree.appendText s
              else tree.modChild (A.length - 1) (fun c => c.appendTail s)) :
    T.text.getD "" ++ contentList (T.children.take A.length)
        = tree.text.getD "" ++ contentList A ++ s
      ∧ T.children.drop A.length = B
      ∧ (T.children.take A.length).map Elem.eid = A.map Elem.eid
      ∧ T.children.length = tree.children.length := by
  by_cases h0 : A = []
  · subst h0
    have hT' : T = tree.appendText s := by simpa using hT
    subst hT' 
    refine ⟨?_, ?_, by simp, by simp [children_appendText]⟩
    · simp [text_appendText, contentList, children_appendText]
    · simp [children_appendText]
      exact hch
  · obtain ⟨A₁, p, rfl⟩ : ∃ A₁ p, A = A₁ ++ [p] := by
      rcases List.eq_nil_or_concat A with h | ⟨A₁, p, h⟩
      · exact absurd h h0
      · exact ⟨A₁, p, by simpa using h⟩
    have hne : ((A₁ ++ [p]).length == 0) = false := by
      simp
    rw [hne] at hT
    simp only [Bool.false_eq_true, if_false] at hT
    have hlen1 : (A₁ ++ [p]).length - 1 = A₁.length := by simp
    have hch' : tree.children = A₁ ++ p :: B := by
      simpa [List.append_assoc] using hch
    have hget : tree.children.get? A₁.length = some p := by
      rw [hch']; exact get?_at_length A₁ p B
    have hset : tree.children.set A₁.length (p.appendTail s) = A₁ ++ (p.appendTail s) :: B := by
      rw [hch']; exact set_at_length A₁ p B _
    have hTval : T = tree.setChildren (A₁ ++ (p.appendTail s) :: B) := by
      rw [hT, hlen1]
      unfold Elem.modChild
      rw [hget]
      dsimp only
      rw [hset]
    subst hTval
    have hAlen : (A₁ ++ [p]).length = A₁.length + 1 := by simp
    refine ⟨?_, ?_, ?_, ?_⟩
    · rw [text_setChildren, children_setChildren, hAlen]
      have : (A₁ ++ (p.appendTail s) :: B).take (A₁.length + 1) = A₁ ++ [p.appendTail s] := by
        have h1 : A₁.length + 1 = A₁.length + 1 := rfl
        rw [show A₁.length + 1 = (A₁).length + 1 from rfl, List.take_append]
        simp
      rw [this, contentList_append, contentList_append, contentList, contentList,
        contentList, contentE_appendTail, tail_appendTail]
      simp [contentList, String.append_assoc]
    · rw [children_setChildren, hAlen]
      have : A₁.length + 1 = (A₁ ++ [p.appendTail s]).length := by simp
      rw [show A₁ ++ (p.appendTail s) :: B = (A₁ ++ [p.appendTail s]) ++ B by simp, this,
        List.drop_left]
    · rw [children_setChildren, hAlen]
      have : (A₁ ++ (p.appendTail s) :: B).take (A₁.length + 1) = A₁ ++ [p.appendTail s] := by
        rw [show A₁.length + 1 = (A₁).length + 1 from rfl, List.take_append]
        simp
      rw [this]
      simp [eid_appendTail]
    · rw [children_setChildren, hch']
      simp

/-- Specification of the insertion half: the result's children are a prefix
(the original `pre`, possibly with extended tail text on its last element),
the parsed fragment's elements and the original remainder `B`; the result's
leading text stream up to the insertion point has gained exactly the
fragment's leading text. -/
theorem replace_nodes_ins_spec (env : LinkifyEnv) (st : WalkSt) (new_frag : String)
    (nt : Elem) (nid : Nat) (tree : Elem) (pre B : List Elem)
    (hpf : env.parseFrag st.nextId new_frag = (nt, nid))
    (hch : tree.children = pre ++ B) :
    ∃ C,
      (replace_nodes_ins env tree new_frag pre.length st).1.children
          = C ++ nt.children ++ B ∧
      (replace_nodes_ins env tree new_frag pre.length st).2.1 = nt.children.length ∧
      C.map Elem.eid = pre.map Elem.eid ∧
      C.length = pre.length ∧
      (replace_nodes_ins env tree new_frag pre.length st).1.text.getD ""
          ++ contentList C
        = tree.text.getD "" ++ contentList pre ++ nt.text.getD "" := by
  simp only [replace_nodes_ins, hpf]
  by_cases hft : optFalsy nt.text = true
  · -- fragment has no leading text to capture
    simp only [hft, Bool.not_true, Bool.false_eq_true, if_false]
    have hle : pre.length + 0 ≤ tree.children.length := by
      simp [hch]
    obtain ⟨h1, h2⟩ := insertLoop_spec nt.children tree pre.length 0
      { st with nextId := nid } hle
    simp only [Nat.add_zero] at h1
    rw [Nat.zero_add] at h2
    refine ⟨tree.children.take pre.length, ?_, h2, ?_, ?_, ?_⟩
    · rw [h1, children_setChildren]
      have hdrop : tree.children.drop pre.length = B := by
        rw [hch, List.drop_left]
      rw [hdrop]
    · rw [hch, List.take_left]
    · rw [hch, List.take_left]
    · rw [h1, text_setChildren, hch, List.take_left, optFalsy_getD _ hft]
      simp
  · -- splice the fragment's leading text at the insertion point
    have hft' : (!optFalsy nt.text) = true := by simp [hft]
    simp only [hft', if_true, ite_true]
    obtain ⟨F1, F2, F3, F4⟩ := textAt_spec tree _ pre B (nt.text.getD "") hch rfl
    have hle : pre.length + 0 ≤
        (if (pre.length == 0) = true then tree.appendText (nt.text.getD "")
         else tree.modChild (pre.length - 1)
           fun c => c.appendTail (nt.text.getD "")).children.length := by
      rw [F4, hch]
      simp
    obtain ⟨h1, h2⟩ := insertLoop_spec nt.children _ pre.length 0
      { st with nextId := nid } hle
    simp only [Nat.add_zero] at h1
    rw [Nat.zero_add] at h2
    refine ⟨_, ?_, h2, F3, ?_, ?_⟩
    · rw [h1, children_setChildren, F2]
    · have := congrArg List.length F3
      simpa using this
    · rw [h1, text_setChildren]
      exact F1

/-- Claim C8: replace_nodes never loses text.  With `node = None` the
parsed fragment's text content is spliced into the tree's text content at
the insertion point; with a `node` to remove (located right after the
insertion point, as at the call sites), the node's own content is replaced
by the fragment's content while the node's tail text is preserved in
place. -/
theorem c8_replace_nodes_text (env : LinkifyEnv) :
    (∀ (st : WalkSt) (new_frag : String) (nt : Elem) (nid : Nat) (tree : Elem)
        (pre post : List Elem),
      env.parseFrag st.nextId new_frag = (nt, nid) →
      tree.children = pre ++ post →
      contentE (replace_nodes env tree new_frag none pre.length st).1
        = tree.text.getD "" ++ contentList pre
          ++ (nt.text.getD "" ++ contentList nt.children) ++ contentList post) ∧
    (∀ (st : WalkSt) (new_frag : String) (nt : Elem) (nid : Nat) (tree : Elem)
        (pre : List Elem) (nd : Elem) (post : List Elem),
      env.parseFrag st.nextId new_frag = (nt, nid) →
      tree.children = pre ++ nd :: post →
      (∀ c ∈ pre ++ nt.children, (c.eid == nd.eid) = false) →
      contentE (replace_nodes env tree new_frag (some nd) pre.length st).1
        = tree.text.getD "" ++ contentList pre
          ++ (nt.text.getD "" ++ contentList nt.children)
          ++ nd.tail.getD "" ++ contentList post) := by
  constructor
  · intro st new_frag nt nid tree pre post hpf hch
    obtain ⟨C, hc1, hc2, hc3, hc4, hc5⟩ :=
      replace_nodes_ins_spec env st new_frag nt nid tree pre post hpf hch
    simp only [replace_nodes]
    rw [contentE_eq, hc1, contentList_append, contentList_append,
      ← String.append_assoc, ← String.append_assoc, hc5]
    simp [String.append_assoc]
  · intro st new_frag nt nid tree pre nd post hpf hch hid
    obtain ⟨C, hc1, hc2, hc3, hc4, hc5⟩ :=
      replace_nodes_ins_spec env st new_frag nt nid tree pre (nd :: post) hpf hch
    simp only [replace_nodes, hc2]
    -- name the tree after insertion
    set R := (replace_nodes_ins env tree new_frag pre.length st).1 with hRdef
    have hsplit : R.children = (C ++ nt.children) ++ nd :: post := by
      rw [hc1, List.append_assoc]
    have hA2len : (C ++ nt.children).length = pre.length + nt.children.length := by
      simp [hc4]
    -- the tail-save step, uniformly across the three cases of src 330-334
    obtain ⟨T₃, hT₃, G1, G2, G3⟩ :
        ∃ T₃ : Elem,
          (if !optFalsy nd.tail then
            (if pre.length + nt.children.length == 0 then R.appendText (nd.tail.getD "")
             else R.modChild (pre.length + nt.children.length - 1)
               (fun c => c.appendTail (nd.tail.getD "")))
           else R) = T₃ ∧
          T₃.text.getD ""
              ++ contentList (T₃.children.take (pre.length + nt.children.length))
            = R.text.getD "" ++ contentList (C ++ nt.children) ++ nd.tail.getD ""
          ∧ T₃.children.drop (pre.length + nt.children.length) = nd :: post
          ∧ (T₃.children.take (pre.length + nt.children.length)).map Elem.eid
              = (C ++ nt.children).map Elem.eid := by
      by_cases htl : optFalsy nd.tail = true
      · refine ⟨R, by simp [htl], ?_, ?_, ?_⟩
        · rw [optFalsy_getD _ htl, hsplit, ← hA2len, List.take_left]
          simp
        · rw [hsplit, ← hA2len, List.drop_left]
        · rw [hsplit, ← hA2len, List.take_left]
      · have htl' : (!optFalsy nd.tail) = true := by simp [htl]
        obtain ⟨F1, F2, F3, _⟩ := textAt_spec R _ (C ++ nt.children) (nd :: post)
          (nd.tail.getD "") hsplit rfl
        rw [hA2len] at F1 F2 F3
        refine ⟨_, ?_, F1, F2, F3⟩
        rw [htl']
        simp
    rw [hT₃]
    have hmem : ∀ c ∈ T₃.children.take (pre.length + nt.children.length),
        (c.eid == nd.eid) = false := by
      intro c hc
      have h1 : c.eid ∈ (T₃.children.take (pre.length + nt.children.length)).map Elem.eid :=
        List.mem_map_of_mem _ hc
      rw [G3, List.map_append, hc3, ← List.map_append] at h1
      obtain ⟨c', hc', heq⟩ := List.mem_map.mp h1
      rw [← heq]
      exact hid c' hc'
    have hch3 : T₃.children
        = T₃.children.take (pre.length + nt.children.length) ++ nd :: post := by
      conv_lhs => rw [← List.take_append_drop (pre.length + nt.children.length) T₃.children]
      rw [G2]
    have hrem : removeById nd.eid T₃.children
        = T₃.children.take (pre.length + nt.children.length) ++ post := by
      conv_lhs => rw [hch3]
      exact removeById_append nd.eid _ nd post hmem (by simp)
    rw [show T₃.removeChild nd.eid = T₃.setChildren (removeById nd.eid T₃.children) from rfl,
      hrem, contentE_setChildren, contentList_append]
    have G1' : T₃.text.getD ""
        ++ contentList (T₃.children.take (pre.length + nt.children.length))
        = (R.text.getD "" ++ contentList C) ++ contentList nt.children
          ++ nd.tail.getD "" := by
      rw [G1, contentList_append]
      simp [String.append_assoc]
    rw [← String.append_assoc, G1', hc5]
    simp [String.append_assoc]

/-- A concrete parsed fragment used to exercise replace_nodes: leading text
`"T"` and one anchor child with text `"A"` and tail `"W"`. -/
def ntC8 : Elem :=
  Elem.mk 101 "DOCUMENT_FRAGMENT" [] (some "T")
    [Elem.mk 102 (etreeTag "a") [("href", "http://x.yz")] (some "A") [] (some "W")] none

/-- A concrete collaborator environment whose parser always yields `ntC8`. -/
def envC8 : LinkifyEnv :=
  { parseFrag := fun n _ => (ntC8, n + 2)
    render := fun _ => ""
    subEmail := fun s => s
    subUrl := fun s => s }

def c1C8 : Elem := Elem.mk 1 (etreeTag "b") [] (some "x") [] (some "u")
def ndC8 : Elem := Elem.mk 2 (etreeTag "c") [] (some "y") [] (some "v")
def c2C8 : Elem := Elem.mk 3 (etreeTag "d") [] (some "z") [] none

/-- A concrete three-child tree. -/
def treeC8 : Elem := Elem.mk 0 "DOCUMENT_FRAGMENT" [] (some "t") [c1C8, ndC8, c2C8] none

def st0C8 : WalkSt := ⟨[], 200, 0, 0⟩

/-- Witness for c8_replace_nodes_text: both halves applied at the concrete
tree, with the parsed fragment spliced after the first child, and (second
half) the second child removed while its tail text `"v"` is preserved. -/
theorem c8_replace_nodes_text_witness :
    contentE (replace_nodes envC8 treeC8 "f" none [c1C8].length st0C8).1
        = treeC8.text.getD "" ++ contentList [c1C8]
          ++ (ntC8.text.getD "" ++ contentList ntC8.children)
          ++ contentList [ndC8, c2C8] ∧
      contentE (replace_nodes envC8 treeC8 "f" (some ndC8) [c1C8].length st0C8).1
        = treeC8.text.getD "" ++ contentList [c1C8]
          ++ (ntC8.text.getD "" ++ contentList ntC8.children)
          ++ ndC8.tail.getD "" ++ contentList [c2C8] :=
  ⟨(c8_replace_nodes_text envC8).1 st0C8 "f" ntC8 202 treeC8 [c1C8] [ndC8, c2C8] rfl rfl,
   (c8_replace_nodes_text envC8).2 st0C8 "f" ntC8 202 treeC8 [c1C8] ndC8 [c2C8] rfl rfl
     (by decide)⟩

/-! ## The linkifier walk (src 395-479)

The walk is genuinely partial (the email-rescan path at src 413 re-enters
the same tree and can recurse without bound, which is why `linkify` catches
`RuntimeError` at src 547), so the embedding is fueled: every loop
iteration and every recursive call consumes one fuel unit, and exhaustion
models Python's recursion-limit `RuntimeError`.  The `Except` error payload
carries the tree and state as mutated so far, matching the in-place
mutation that survives a propagating Python exception. -/

/-- `node` of the loop body: the tree itself at the virtual position `-1`,
else the current child (src 402-403, 423-424). -/
def getNode (tree : Elem) (cc : Int) : Elem :=
  if cc < 0 then tree else tree.children.getD cc.toNat default

/-- Write the possibly mutated `node` back: Python mutates in place through
the alias. -/
def setNode (tree : Elem) (cc : Int) (n : Elem) : Elem :=
  if cc < 0 then n else tree.setChildren (tree.children.set cc.toNat n)

/-- `node.get(k, None)` (src 447). -/
def Elem.getAttr (e : Elem) (k : String) : Option String :=
  (e.attrs.find? (fun kv => kv.1 == k)).map (fun kv => kv.2)

/-- _render_inner (src 387-393): the node's leading text, then each child
serialized by the external serializer followed by its tail. -/
def render_inner (env : LinkifyEnv) (e : Elem) : String :=
  e.text.getD "" ++ String.join (e.children.map fun sub => env.render sub ++ sub.tail.getD "")

/-- Result of the tail-processing step (src 426-444): either `continue`
(the email substitution path, src 437) or fall through to the anchor step
with the possibly updated tree. -/
inductive TailRes where
  | cont (tree : Elem) (st : WalkSt)
  | fall (tree : Elem) (st : WalkSt)

/-- The tail-processing step (src 426-444) on the node at `cc`. -/
def tailStep (env : LinkifyEnv) (opts : LinkifyOpts) (parse_text : Bool)
    (tree : Elem) (cc : Int) (st : WalkSt) : TailRes :=
  let node := getNode tree cc
  if parse_text && !optFalsy node.tail then
    let old_tail := node.tail.getD ""
    let new_tail := if opts.parseEmail then env.subEmail old_tail else old_tail
    if opts.parseEmail && (new_tail != old_tail) then
      let tree1 := setNode tree cc (node.setTail (some ""))
      let r := replace_nodes env tree1 new_tail none (cc + 1).toNat st
      .cont r.1 r.2.2
    else
      let new_tail2 := env.subUrl new_tail
      if new_tail2 != old_tail then
        let tree1 := setNode tree cc (node.setTail (some ""))
        let r := replace_nodes env tree1 new_tail2 none (cc + 1).toNat st
        .fall r.1 r.2.2
      else .fall tree st
  else .fall tree st

/-- The guard of the anchor step (src 446): the node is an `<a>` not yet in
the seen-set. -/
def anchorCond (tree : Elem) (cc : Int) (st : WalkSt) : Bool :=
  let node := getNode tree cc
  node.tag == etreeTag "a" && !(st.seen.contains node.eid)

/-- The anchor-processing step (src 446-471), assuming `anchorCond`: run
the anchor's attributes plus rendered inner text through the callback
chain; on rejection replace the anchor with its inner text and pull the
cursor back one step; on acceptance update the attributes, re-parse and
replace the inner content and mark the node seen.  The ghost `cbCalls`
counter records the callback-chain invocation. -/
def anchorStep (env : LinkifyEnv) (cbs : List Callback) (tree : Elem) (cc : Int)
    (st : WalkSt) : Elem × Int × WalkSt :=
  let node := getNode tree cc
  if (node.getAttr "href").isSome then
    let _text := render_inner env node
    let attrs := assocSet node.attrs "_text" _text
    let st := { st with cbCalls := st.cbCalls + 1 }
    match apply_callbacks cbs attrs false with
    | none =>
      let r := replace_nodes env tree _text (some node) cc.toNat st
      (r.1, cc - 1, r.2.2)
    | some attrs2 =>
      let tp := assocPop attrs2 "_text"
      let node := node.setAttrs (tp.2.foldl (fun a kv => assocSet a kv.1 kv.2) node.attrs)
      let node := node.setChildren []
      let pf := env.parseFrag st.nextId tp.1
      let st := { st with nextId := pf.2 }
      let node := node.setText pf.1.text
      let node := node.setChildren pf.1.children
      let st := { st with seen := node.eid :: st.seen }
      (setNode tree cc node, cc, st)
  else (tree, cc, st)

mutual
/-- linkify_nodes (src 395-479): enter the per-subtree walk.  Fuel
exhaustion models the recursion-limit `RuntimeError`; the ghost `maxDepth`
records the recursion depth reached. -/
def linkify_nodes (env : LinkifyEnv) (cbs : List Callback) (opts : LinkifyOpts) :
    Nat → Nat → Elem → Bool → WalkSt → Except (Elem × WalkSt) (Elem × WalkSt)
  | 0, _, tree, _, st => .error (tree, st)
  | fuel + 1, depth, tree, parse_text, st =>
    walkLoop env cbs opts fuel depth tree parse_text (-1)
      { st with maxDepth := max st.maxDepth depth }

/-- One iteration of the `while current_child < len(tree)` loop
(src 399-479).  `cc` is `current_child`, starting at the virtual `-1`. -/
def walkLoop (env : LinkifyEnv) (cbs : List Callback) (opts : LinkifyOpts) :
    Nat → Nat → Elem → Bool → Int → WalkSt → Except (Elem × WalkSt) (Elem × WalkSt)
  | 0, _, tree, _, _, st => .error (tree, st)
  | fuel + 1, depth, tree, parse_text, cc, st =>
    if cc ≥ (tree.children.length : Int) then .ok (tree, st)
    else if optFalsy tree.text then .ok (tree, st)
    else
      -- src 402-422: the parent's own leading text, processed at cc = -1
      if cc < 0 && parse_text && !optFalsy tree.text then
        let old_txt := tree.text.getD ""
        let new_txt := if opts.parseEmail then env.subEmail old_txt else old_txt
        if opts.parseEmail && !new_txt.isEmpty && (new_txt != old_txt) then
          -- src 407-414: email substitution, re-walk the same tree, continue
          let r := replace_nodes env (tree.setText (some "")) new_txt none 0 st
          match linkify_nodes env cbs opts fuel (depth + 1) r.1 true r.2.2 with
          | .error e => .error e
          | .ok x => walkLoop env cbs opts fuel depth x.1 parse_text (cc + r.2.1) x.2
        else
          let new_txt2 := env.subUrl new_txt
          if new_txt2 != old_txt then
            -- src 416-422: url substitution, continue
            let r := replace_nodes env (tree.setText (some "")) new_txt2 none 0 st
            walkLoop env cbs opts fuel depth r.1 parse_text (cc + r.2.1) r.2.2
          else
            walkAfterText env cbs opts fuel depth tree parse_text cc st
      else
        walkAfterText env cbs opts fuel depth tree parse_text cc st

/-- The rest of one loop iteration: the tail step (src 426-444), then the
anchor step (src 446-471) or the child recursion (src 473-477), then
`current_child += 1` (src 479). -/
def walkAfterText (env : LinkifyEnv) (cbs : List Callback) (opts : LinkifyOpts) :
    Nat → Nat → Elem → Bool → Int → WalkSt → Except (Elem × WalkSt) (Elem × WalkSt)
  | 0, _, tree, _, _, st => .error (tree, st)
  | fuel + 1, depth, tree, parse_text, cc, st =>
    match tailStep env opts parse_text tree cc st with
    | .cont tree1 st1 =>
      -- src 437: continue without advancing the cursor
      walkLoop env cbs opts fuel depth tree1 parse_text cc st1
    | .fall tree1 st1 =>
      if anchorCond tree1 cc st1 then
        let a := anchorStep env cbs tree1 cc st1
        walkLoop env cbs opts fuel depth a.1 parse_text (a.2.1 + 1) a.2.2
      else if cc ≥ 0 then
        let node := getNode tree1 cc
        if node.tag == etreeTag "pre" && opts.skipPre then
          match linkify_nodes env cbs opts fuel (depth + 1) node false st1 with
          | .error x => .error (setNode tree1 cc x.1, x.2)
          | .ok x => walkLoop env cbs opts fuel depth (setNode tree1 cc x.1) parse_text
              (cc + 1) x.2
        else if !(st1.seen.contains node.eid) then
          match linkify_nodes env cbs opts fuel (depth + 1) node parse_text st1 with
          | .error x => .error (setNode tree1 cc x.1, x.2)
          | .ok x => walkLoop env cbs opts fuel depth (setNode tree1 cc x.1) parse_text
              (cc + 1) x.2
        else
          walkLoop env cbs opts fuel depth tree1 parse_text (cc + 1) st1
      else
        walkLoop env cbs opts fuel depth tree1 parse_text (cc + 1) st1
end

/-- linkify (src 271-293, 545-551): force_unicode is the identity on
already-decoded strings; empty input short-circuits to `''`; otherwise the
fragment is parsed, walked, and rendered — and if the walk raises the
recursion-limit error, the error is logged and the best-effort tree as
mutated so far is rendered instead (src 547-550). -/
def linkify (env : LinkifyEnv) (cbs : List Callback) (opts : LinkifyOpts)
    (fuel : Nat) (text : String) : String :=
  if text = "" then ""
  else
    let pf := env.parseFrag 0 text
    let st0 : WalkSt := ⟨[], pf.2, 0, 0⟩
    match linkify_nodes env cbs opts fuel 1 pf.1 true st0 with
    | .ok x => env.render x.1
    | .error x => env.render x.1

mutual
/-- A concrete stand-in for the external serializer (spec section 6), used
by demonstration environments. -/
def serializeDemo : Elem → String
  | .mk _ tag _ tx cs _ =>
    "<" ++ tag ++ ">" ++ tx.getD "" ++ serializeListDemo cs ++ "</" ++ tag ++ ">"

/-- Serialize a child list: each child followed by its tail. -/
def serializeListDemo : List Elem → String
  | [] => ""
  | c :: rest => serializeDemo c ++ c.tail.getD "" ++ serializeListDemo rest
end

/-! ## Claim C2: the walk's early return on empty leading text -/

/-- The parse of `<a href="http://example.com">text</a>`: a fragment with
no leading text whose only child is the anchor. -/
def aTreeC2 : Elem :=
  Elem.mk 0 "DOCUMENT_FRAGMENT" []
    none [Elem.mk 1 (etreeTag "a") [("href", "http://example.com")] (some "text") [] none]
    none

/-- The parse of `<b>x</b> see http://example.com`: a fragment with no
leading text whose only child carries the URL in its tail. -/
def bTreeC2 : Elem :=
  Elem.mk 0 "DOCUMENT_FRAGMENT" []
    none [Elem.mk 1 (etreeTag "b") [] (some "x") [] (some " see http://example.com")]
    none

/-- Claim C2 (code bug, src 400-401): for every collaborator environment,
callback chain and option set, the walk returns at its first iteration on
any fragment without leading text: the pre-existing anchor of
`<a href="http://example.com">text</a>` is never run through the callback
chain (`cbCalls` unchanged) and never marked seen, and the URL in the tail
of `<b>x</b> see http://example.com` is never linkified — the tree comes
back exactly as it went in, contradicting the claimed walk contract and
linkify's own docstring. -/
theorem c2_walk_early_return (env : LinkifyEnv) (cbs : List Callback)
    (opts : LinkifyOpts) (n depth : Nat) (st : WalkSt) :
    linkify_nodes env cbs opts (n + 2) depth aTreeC2 true st
        = .ok (aTreeC2, { st with maxDepth := max st.maxDepth depth }) ∧
      linkify_nodes env cbs opts (n + 2) depth bTreeC2 true st
        = .ok (bTreeC2, { st with maxDepth := max st.maxDepth depth }) := by
  constructor <;>
    simp [linkify_nodes, walkLoop, aTreeC2, bTreeC2, optFalsy, Elem.children, Elem.text]

/-! ## Claim C4: the recursion-limit catch in linkify -/

/-- Claim C4: when the walk signals the recursion-limit error, `linkify`
catches it at the top and returns the serialization of the tree as mutated
so far — it never re-raises and never falls back to the original input
string. -/
theorem c4_recursion_caught (env : LinkifyEnv) (cbs : List Callback)
    (opts : LinkifyOpts) (fuel : Nat) (text : String) (forest : Elem) (nid : Nat)
    (t' : Elem) (st' : WalkSt)
    (hne : text ≠ "")
    (hp : env.parseFrag 0 text = (forest, nid))
    (hw : linkify_nodes env cbs opts fuel 1 forest true ⟨[], nid, 0, 0⟩ = .error (t', st')) :
    linkify env cbs opts fuel text = env.render t' := by
  simp only [linkify, if_neg hne, hp, hw]

/-- A concrete environment for the C4 witness: the input `u` parses to a
fragment with leading text `u`, the URL scan rewrites `u` to the marker
fragment `LINKED`, which parses to an anchor. -/
def envC4 : LinkifyEnv :=
  { parseFrag := fun n s =>
      if s = "u" then (Elem.mk 100 "DOCUMENT_FRAGMENT" [] (some "u") [] none, n + 1)
      else if s = "LINKED" then
        (Elem.mk 101 "DOCUMENT_FRAGMENT" [] (some "")
          [Elem.mk n (etreeTag "a") [("href", "http://u.com")] (some "u") [] none] none,
         n + 1)
      else (default, n)
    render := serializeDemo
    subEmail := fun s => s
    subUrl := fun s => if s = "u" then "LINKED" else s }

/-- The tree as mutated when the fuel runs out right after the URL
substitution spliced the anchor in. -/
def mutC4 : Elem :=
  Elem.mk 100 "DOCUMENT_FRAGMENT" [] (some "")
    [Elem.mk 1 (etreeTag "a") [("href", "http://u.com")] (some "u") [] none] none

/-- Witness for c4_recursion_caught: with fuel 2 the walk dies right after
splicing the anchor; linkify returns the serialization of the mutated tree,
which differs from the original input. -/
theorem c4_recursion_caught_witness :
    linkify envC4 [] ⟨false, false⟩ 2 "u" = envC4.render mutC4 ∧
      envC4.render mutC4 ≠ "u" :=
  ⟨c4_recursion_caught envC4 [] ⟨false, false⟩ 2 "u"
      (Elem.mk 100 "DOCUMENT_FRAGMENT" [] (some "u") [] none) 1 mutC4 ⟨[1], 2, 1, 0⟩
      (by decide) rfl rfl,
   by decide⟩

/-! ## Claim C5: recursion depth vs input nesting -/

/-- The tree/state pair carried by a walk result, whether it finished or
signalled the recursion error. -/
def exOut (r : Except (Elem × WalkSt) (Elem × WalkSt)) : Elem × WalkSt :=
  match r with
  | .ok x => x
  | .error x => x

theorem exOut_ok (x : Elem × WalkSt) : exOut (.ok x) = x := rfl

theorem exOut_error (x : Elem × WalkSt) : exOut (.error x) = x := rfl

theorem heightE_pos (e : Elem) : 1 ≤ heightE e := by
  cases e
  simp [heightE]

theorem heightList_mem (c : Elem) (cs : List Elem) (h : c ∈ cs) :
    heightE c ≤ heightList cs := by
  induction cs with
  | nil => cases h
  | cons d rest ih =>
    rcases List.mem_cons.mp h with h1 | h1
    · subst h1
      simp [heightList, Nat.le_max_left]
    · calc heightE c ≤ heightList rest := ih h1
        _ ≤ max (heightE d) (heightList rest) := Nat.le_max_right _ _
        _ = heightList (d :: rest) := by rw [heightList]

theorem heightE_child (tree c : Elem) (i : Nat) (h : tree.children.get? i = some c) :
    heightE c + 1 ≤ heightE tree := by
  have hmem : c ∈ tree.children := by
    have := List.get?_eq_some.mp h
    obtain ⟨hlt, heq⟩ := this
    exact heq ▸ List.get_mem _ _ _
  cases tree with
  | mk eid tag attrs tx cs tl =>
    simp only [Elem.children] at hmem
    have := heightList_mem c cs hmem
    simp [heightE]
    omega

theorem tag_setText (e : Elem) (t : Option String) : (e.setText t).tag = e.tag := by
  cases e; rfl

theorem eid_setText (e : Elem) (t : Option String) : (e.setText t).eid = e.eid := by
  cases e; rfl

theorem tag_setChildren (e : Elem) (cs : List Elem) : (e.setChildren cs).tag = e.tag := by
  cases e; rfl

theorem eid_setChildren (e : Elem) (cs : List Elem) : (e.setChildren cs).eid = e.eid := by
  cases e; rfl

/-- Under identity substituters the tail step never fires: it always falls
through with the tree and state untouched. -/
theorem tailStep_id (env : LinkifyEnv) (opts : LinkifyOpts) (pt : Bool) (tree : Elem)
    (cc : Int) (st : WalkSt) (he : ∀ s, env.subEmail s = s) :
    (∀ s, env.subUrl s = s) →
    tailStep env opts pt tree cc st = .fall tree st := by
  intro hu
  unfold tailStep
  by_cases h1 : (pt && !optFalsy (getNode tree cc).tail) = true
  · rw [if_pos h1]
    have hnew : (if opts.parseEmail
        then env.subEmail ((getNode tree cc).tail.getD "")
        else (getNode tree cc).tail.getD "") = (getNode tree cc).tail.getD "" := by
      cases opts.parseEmail <;> simp [he]
    simp only [hnew, bne_self_eq_false, Bool.and_false, Bool.false_eq_true, if_false,
      hu, if_neg]
  · rw [if_neg h1]

theorem tag_setNode (tree n : Elem) (cc : Int) (h : 0 ≤ cc) :
    (setNode tree cc n).tag = tree.tag := by
  unfold setNode
  rw [if_neg (by omega)]
  exact tag_setChildren _ _

theorem eid_setNode (tree n : Elem) (cc : Int) (h : 0 ≤ cc) :
    (setNode tree cc n).eid = tree.eid := by
  unfold setNode
  rw [if_neg (by omega)]
  exact eid_setChildren _ _

theorem get?_setNode_ne (tree n : Elem) (cc : Int) (h : 0 ≤ cc) (i : Nat)
    (hi : i ≠ cc.toNat) :
    (setNode tree cc n).children.get? i = tree.children.get? i := by
  unfold setNode
  rw [if_neg (by omega), children_setChildren]
  simp only [List.get?_eq_getElem?]
  rw [List.getElem?_set_ne (by omega)]

theorem getNode_nonneg (tree c : Elem) (cc : Int) (h0 : 0 ≤ cc)
    (h : tree.children.get? cc.toNat = some c) : getNode tree cc = c := by
  unfold getNode
  rw [if_neg (by omega)]
  rw [List.getD, h]
  rfl

/-- With an empty callback chain the anchor step never rejects: it returns
the same cursor, keeps `maxDepth`, only grows the seen-set, and only ever
rewrites the node at the cursor. -/
theorem anchorStep_nil (env : LinkifyEnv) (tree : Elem) (cc : Int) (st : WalkSt) :
    ∃ st' tree',
      anchorStep env [] tree cc st = (tree', cc, st') ∧
      st'.maxDepth = st.maxDepth ∧
      st.seen ⊆ st'.seen ∧
      (tree' = tree ∨ ∃ n, tree' = setNode tree cc n) := by
  unfold anchorStep
  by_cases hhref : ((getNode tree cc).getAttr "href").isSome = true
  · rw [if_pos hhref]
    simp only [apply_callbacks]
    refine ⟨_, _, rfl, rfl, ?_, .inr ⟨_, rfl⟩⟩
    intro a haa
    exact List.mem_cons_of_mem _ haa
  · rw [if_neg hhref]
    exact ⟨st, tree, rfl, rfl, fun a haa => haa, .inl rfl⟩

/-- The depth/seen master bound for the walk under identity substituters
and an empty callback chain: every recursive call outside the (here
disabled) email-rescan path descends into a strict child, so the ghost
`maxDepth` never exceeds the entry depth plus the tree height minus one,
and the seen-set only grows. -/
theorem walk_depth_master (env : LinkifyEnv) (opts : LinkifyOpts)
    (he : ∀ s, env.subEmail s = s) (hu : ∀ s, env.subUrl s = s) :
    ∀ fuel : Nat,
      (∀ depth tree pt st H, 1 ≤ H → heightE tree ≤ H →
        (tree.tag = etreeTag "a" → tree.eid ∈ st.seen) →
        (exOut (linkify_nodes env [] opts fuel depth tree pt st)).2.maxDepth
            ≤ max st.maxDepth (depth + H - 1)
          ∧ st.seen ⊆ (exOut (linkify_nodes env [] opts fuel depth tree pt st)).2.seen) ∧
      (∀ depth tree pt cc st H, 1 ≤ H →
        (tree.tag = etreeTag "a" → tree.eid ∈ st.seen) →
        (∀ i : Nat, cc ≤ (i : Int) → ∀ c, tree.children.get? i = some c →
          c.tag = etreeTag "a" ∨ heightE c + 1 ≤ H) →
        (exOut (walkLoop env [] opts fuel depth tree pt cc st)).2.maxDepth
            ≤ max st.maxDepth (depth + H - 1)
          ∧ st.seen ⊆ (exOut (walkLoop env [] opts fuel depth tree pt cc st)).2.seen) ∧
      (∀ depth tree pt cc st H, 1 ≤ H → cc < (tree.children.length : Int) →
        (tree.tag = etreeTag "a" → tree.eid ∈ st.seen) →
        (∀ i : Nat, cc ≤ (i : Int) → ∀ c, tree.children.get? i = some c →
          c.tag = etreeTag "a" ∨ heightE c + 1 ≤ H) →
        (exOut (walkAfterText env [] opts fuel depth tree pt cc st)).2.maxDepth
            ≤ max st.maxDepth (depth + H - 1)
          ∧ st.seen ⊆ (exOut (walkAfterText env [] opts fuel depth tree pt cc st)).2.seen) := by
  intro fuel
  induction fuel with
  | zero =>
    refine ⟨?_, ?_, ?_⟩
    · intro depth tree pt st H h1 _ _
      exact ⟨Nat.le_max_left _ _, fun a ha => ha⟩
    · intro depth tree pt cc st H h1 _ _
      exact ⟨Nat.le_max_left _ _, fun a ha => ha⟩
    · intro depth tree pt cc st H h1 _ _ _
      exact ⟨Nat.le_max_left _ _, fun a ha => ha⟩
  | succ f ih =>
    obtain ⟨ihP, ihQ, ihR⟩ := ih
    refine ⟨?_, ?_, ?_⟩
    · -- linkify_nodes: record the depth and enter the loop
      intro depth tree pt st H h1 hH hsafe
      simp only [linkify_nodes]
      have hinv : ∀ i : Nat, (-1 : Int) ≤ (i : Int) → ∀ c,
          tree.children.get? i = some c →
          c.tag = etreeTag "a" ∨ heightE c + 1 ≤ H := by
        intro i _ c hc
        right
        calc heightE c + 1 ≤ heightE tree := heightE_child tree c i hc
          _ ≤ H := hH
      obtain ⟨hq1, hq2⟩ := ihQ depth tree pt (-1)
        { st with maxDepth := max st.maxDepth depth } H h1 hsafe hinv
      refine ⟨?_, hq2⟩
      calc (exOut (walkLoop env [] opts f depth tree pt (-1)
            { st with maxDepth := max st.maxDepth depth })).2.maxDepth
          ≤ max (max st.maxDepth depth) (depth + H - 1) := hq1
        _ ≤ max st.maxDepth (depth + H - 1) := by omega
    · -- walkLoop: guards, then (disabled) text step, then the rest
      intro depth tree pt cc st H h1 hsafe hinv
      simp only [walkLoop]
      by_cases hg1 : cc ≥ (tree.children.length : Int)
      · rw [if_pos hg1]
        exact ⟨Nat.le_max_left _ _, fun a ha => ha⟩
      · rw [if_neg hg1]
        by_cases hg2 : optFalsy tree.text = true
        · rw [if_pos hg2]
          exact ⟨Nat.le_max_left _ _, fun a ha => ha⟩
        · rw [if_neg hg2]
          have hR := ihR depth tree pt cc st H h1 (by omega) hsafe hinv
          have hnew : (if opts.parseEmail then env.subEmail (tree.text.getD "")
              else tree.text.getD "") = tree.text.getD "" := by
            cases opts.parseEmail <;> simp [he]
          by_cases hg3 : (decide (cc < 0) && pt && !optFalsy tree.text) = true
          · rw [if_pos hg3]
            simp only [hnew, bne_self_eq_false, Bool.and_false, Bool.false_eq_true,
              if_false, hu]
            exact hR
          · rw [if_neg hg3]
            exact hR
    · -- walkAfterText: tail step inert; anchor step or child recursion
      intro depth tree pt cc st H h1 hlen hsafe hinv
      simp only [walkAfterText]
      rw [tailStep_id env opts pt tree cc st he hu]
      by_cases ha : anchorCond tree cc st = true
      · -- the anchor branch: cursor stays, node at the cursor rewritten
        simp only [ha, if_pos, if_true]
        have hcc0 : (0 : Int) ≤ cc := by
          by_contra hneg
          push_neg at hneg
          unfold anchorCond at ha
          unfold getNode at ha
          rw [if_pos (by omega : cc < 0)] at ha
          simp only [Bool.and_eq_true] at ha
          obtain ⟨hta, hsn⟩ := ha
          have hmem : tree.eid ∈ st.seen := hsafe (by simpa using hta)
          have hcontains : st.seen.contains tree.eid = true := by
            simpa [List.contains, List.elem_iff] using hmem
          rw [hcontains] at hsn
          simp at hsn
        obtain ⟨st', tree', hstep, hmd, hsub, hor⟩ := anchorStep_nil env tree cc st
        rw [hstep]
        have hsafe' : tree'.tag = etreeTag "a" → tree'.eid ∈ st'.seen := by
          rcases hor with rfl | ⟨n, rfl⟩
          · intro hta
            exact hsub (hsafe hta)
          · rw [tag_setNode _ _ _ hcc0, eid_setNode _ _ _ hcc0]
            intro hta
            exact hsub (hsafe hta)
        have hinv' : ∀ i : Nat, cc + 1 ≤ (i : Int) → ∀ c,
            tree'.children.get? i = some c →
            c.tag = etreeTag "a" ∨ heightE c + 1 ≤ H := by
          intro i hi c hc
          rcases hor with rfl | ⟨n, rfl⟩
          · exact hinv i (by omega) c hc
          · rw [get?_setNode_ne _ _ _ hcc0 i (by omega)] at hc
            exact hinv i (by omega) c hc
        obtain ⟨hq1, hq2⟩ := ihQ depth tree' pt (cc + 1) st' H h1 hsafe' hinv'
        constructor
        · calc (exOut (walkLoop env [] opts f depth tree' pt (cc + 1) st')).2.maxDepth
              ≤ max st'.maxDepth (depth + H - 1) := hq1
            _ = max st.maxDepth (depth + H - 1) := by rw [hmd]
        · exact fun a haa => hq2 (hsub haa)
      · simp only [ha, Bool.false_eq_true, if_false]
        by_cases hge : cc ≥ (0 : Int)
        · rw [if_pos hge]
          have hccl : cc.toNat < tree.children.length := by omega
          obtain ⟨c, hc⟩ : ∃ c, tree.children.get? cc.toNat = some c := by
            rw [List.get?_eq_getElem?]
            exact ⟨_, List.getElem?_eq_getElem hccl⟩
          rw [getNode_nonneg tree c cc hge hc]
          have hcb := hinv cc.toNat (by omega) c hc
          have hrecfacts : ∀ (pt' : Bool),
              c.tag ≠ etreeTag "a" →
              ((exOut (linkify_nodes env [] opts f (depth + 1) c pt' st)).2.maxDepth
                  ≤ max st.maxDepth (depth + H - 1)
                ∧ st.seen ⊆
                    (exOut (linkify_nodes env [] opts f (depth + 1) c pt' st)).2.seen) := by
            intro pt' hcna
            have hch : heightE c + 1 ≤ H := by
              rcases hcb with hcb | hcb
              · exact absurd hcb hcna
              · exact hcb
            obtain ⟨hp1, hp2⟩ := ihP (depth + 1) c pt' st (heightE c)
              (heightE_pos c) (Nat.le_refl _) (fun hta => absurd hta hcna)
            refine ⟨?_, hp2⟩
            calc (exOut (linkify_nodes env [] opts f (depth + 1) c pt' st)).2.maxDepth
                ≤ max st.maxDepth (depth + 1 + heightE c - 1) := hp1
              _ ≤ max st.maxDepth (depth + H - 1) := by omega
          have hcont : ∀ (x : Elem × WalkSt),
              x.2.maxDepth ≤ max st.maxDepth (depth + H - 1) →
              st.seen ⊆ x.2.seen →
              ((exOut (walkLoop env [] opts f depth (setNode tree cc x.1) pt (cc + 1)
                  x.2)).2.maxDepth ≤ max st.maxDepth (depth + H - 1)
                ∧ st.seen ⊆ (exOut (walkLoop env [] opts f depth (setNode tree cc x.1)
                    pt (cc + 1) x.2)).2.seen) := by
            intro x hx1 hx2
            have hsafe' : (setNode tree cc x.1).tag = etreeTag "a" →
                (setNode tree cc x.1).eid ∈ x.2.seen := by
              rw [tag_setNode _ _ _ hge, eid_setNode _ _ _ hge]
              intro hta
              exact hx2 (hsafe hta)
            have hinv' : ∀ i : Nat, cc + 1 ≤ (i : Int) → ∀ d,
                (setNode tree cc x.1).children.get? i = some d →
                d.tag = etreeTag "a" ∨ heightE d + 1 ≤ H := by
              intro i hi d hd
              rw [get?_setNode_ne _ _ _ hge i (by omega)] at hd
              exact hinv i (by omega) d hd
            obtain ⟨hq1, hq2⟩ := ihQ depth (setNode tree cc x.1) pt (cc + 1) x.2 H h1
              hsafe' hinv'
            refine ⟨?_, fun a haa => hq2 (hx2 haa)⟩
            calc (exOut (walkLoop env [] opts f depth (setNode tree cc x.1) pt (cc + 1)
                  x.2)).2.maxDepth
                ≤ max x.2.maxDepth (depth + H - 1) := hq1
              _ ≤ max st.maxDepth (depth + H - 1) := by omega
          by_cases hpre : (c.tag == etreeTag "pre" && opts.skipPre) = true
          · rw [if_pos hpre]
            have hcna : c.tag ≠ etreeTag "a" := by
              have hpre' := hpre
              simp only [Bool.and_eq_true] at hpre'
              obtain ⟨hp1, _⟩ := hpre'
              intro hca
              rw [hca] at hp1
              exact absurd (by simpa using hp1) (by decide)
            obtain ⟨hp1, hp2⟩ := hrecfacts false hcna
            rcases hr : linkify_nodes env [] opts f (depth + 1) c false st with x | x
            · rw [hr] at hp1 hp2
              rw [exOut_error] at hp1 hp2
              exact ⟨hp1, hp2⟩
            · rw [hr] at hp1 hp2
              rw [exOut_ok] at hp1 hp2
              exact hcont x hp1 hp2
          · rw [if_neg (by simpa using hpre)]
            by_cases hseen : (!(st.seen.contains c.eid)) = true
            · rw [if_pos hseen]
              have hcna : c.tag ≠ etreeTag "a" := by
                intro hca
                unfold anchorCond at ha
                rw [getNode_nonneg tree c cc hge hc] at ha
                simp only [hca, beq_self_eq_true, Bool.true_and] at ha
                exact ha hseen
              obtain ⟨hp1, hp2⟩ := hrecfacts pt hcna
              rcases hr : linkify_nodes env [] opts f (depth + 1) c pt st with x | x
              · rw [hr] at hp1 hp2
                rw [exOut_error] at hp1 hp2
                exact ⟨hp1, hp2⟩
              · rw [hr] at hp1 hp2
                rw [exOut_ok] at hp1 hp2
                exact hcont x hp1 hp2
            · rw [if_neg (by simpa using hseen)]
              obtain ⟨hq1, hq2⟩ := ihQ depth tree pt (cc + 1) st H h1 hsafe
                (fun i hi c' hc' => hinv i (by omega) c' hc')
              exact ⟨hq1, hq2⟩
        · rw [if_neg hge]
          obtain ⟨hq1, hq2⟩ := ihQ depth tree pt (cc + 1) st H h1 hsafe
            (fun i hi c' hc' => hinv i (by omega) c' hc')
          exact ⟨hq1, hq2⟩

/-- A concrete environment in which the text scan finds one email address:
`x a@b.cd` is rewritten to the fragment `x MAILED`, which parses to a
leading text and one mailto anchor. -/
def envMail : LinkifyEnv :=
  { parseFrag := fun n s =>
      if s = "x MAILED" then
        (Elem.mk 900 "DOCUMENT_FRAGMENT" [] (some "x ")
          [Elem.mk n (etreeTag "a") [("href", "mailto:a@b.cd")] (some "a@b.cd") [] none]
          none, n + 1)
      else (default, n)
    render := fun _ => ""
    subEmail := fun s => if s = "x a@b.cd" then "x MAILED" else s
    subUrl := fun s => s }

/-- A flat input fragment (nesting depth 1) whose leading text holds one
email address. -/
def TmailC5 : Elem := Elem.mk 0 "DOCUMENT_FRAGMENT" [] (some "x a@b.cd") [] none

/-- Claim C5 counterexample: on a flat tree of nesting depth 1 the email
substitution makes linkify_nodes re-enter the same tree (src 413), so the
recursion depth reached is 2 — the depth is not bounded by the input tree's
nesting. -/
theorem c5_depth_counterexample :
    heightE TmailC5 = 1 ∧
      (exOut (linkify_nodes envMail [] ⟨false, true⟩ 20 1 TmailC5 true
        ⟨[], 1, 0, 0⟩)).2.maxDepth = 2 ∧
      ¬ (exOut (linkify_nodes envMail [] ⟨false, true⟩ 20 1 TmailC5 true
        ⟨[], 1, 0, 0⟩)).2.maxDepth ≤ heightE TmailC5 := by
  refine ⟨rfl, rfl, ?_⟩
  intro h
  rw [show heightE TmailC5 = 1 from rfl] at h
  rw [show (exOut (linkify_nodes envMail [] ⟨false, true⟩ 20 1 TmailC5 true
    ⟨[], 1, 0, 0⟩)).2.maxDepth = 2 from rfl] at h
  omega

/-- Claim C5 (amended): the child recursions of linkify_nodes (src 473-477)
descend into strict children, so when the text scans substitute nothing
(identity email/url substituters) and the callback chain is empty, the
recursion depth reached by the walk is bounded by the input tree's nesting
depth; the email-rescan call (src 413) re-walks the same tree, so the bound
fails in general (see the counterexample). -/
theorem c5_depth_amended (env : LinkifyEnv) (opts : LinkifyOpts) (fuel : Nat)
    (tree : Elem) (nid : Nat)
    (he : ∀ s, env.subEmail s = s) (hu : ∀ s, env.subUrl s = s)
    (hroot : tree.tag ≠ etreeTag "a") :
    (exOut (linkify_nodes env [] opts fuel 1 tree true ⟨[], nid, 0, 0⟩)).2.maxDepth
      ≤ heightE tree := by
  obtain ⟨hp1, _⟩ := (walk_depth_master env opts he hu fuel).1 1 tree true
    ⟨[], nid, 0, 0⟩ (heightE tree) (heightE_pos tree) (Nat.le_refl _)
    (fun hta => absurd hta hroot)
  calc (exOut (linkify_nodes env [] opts fuel 1 tree true ⟨[], nid, 0, 0⟩)).2.maxDepth
      ≤ max (0 : Nat) (1 + heightE tree - 1) := hp1
    _ ≤ heightE tree := by omega

/-- An inert collaborator environment (identity substituters). -/
def envIdC5 : LinkifyEnv :=
  { parseFrag := fun n _ => (default, n)
    render := fun _ => ""
    subEmail := fun s => s
    subUrl := fun s => s }

/-- A two-level input tree for the C5 witness. -/
def TwitC5 : Elem :=
  Elem.mk 0 "DOCUMENT_FRAGMENT" [] (some "t")
    [Elem.mk 1 (etreeTag "b") [] (some "x") [] none] none

/-- Witness for c5_depth_amended: on a two-level tree with nothing to
substitute the walk's recursion depth stays within the nesting depth 2. -/
theorem c5_depth_amended_witness :
    (exOut (linkify_nodes envIdC5 [] ⟨false, false⟩ 9 1 TwitC5 true
      ⟨[], 5, 0, 0⟩)).2.maxDepth ≤ heightE TwitC5 :=
  c5_depth_amended envIdC5 ⟨false, false⟩ 9 TwitC5 5 (fun _ => rfl) (fun _ => rfl)
    (by decide)

/-! ## Claims C1 and C9: the sanitizing filter and the clean entry point

`Cleaner.clean` (src 168-201) wires parser → BleachSanitizerFilter →
(optional extra filters) → serializer.  `bleach/sanitizer.py` is not part
of the source tree, so the filter is modelled from the spec (sections 4.1
and 6). -/

/-- A token of the html5lib tree-walker event stream (spec section 6). -/
inductive SEvent where
  | startTag (tag : String) (attrs : Attrs)
  | endTag (tag : String)
  | chars (s : String)
  | comment (s : String)
deriving DecidableEq

/-- The whitelist configuration of a `Cleaner` (src 116-153). -/
structure CleanConfig where
  tags : List String
  attributes : List (String × List String)
  styles : List String
  protocols : List String
  strip : Bool
  stripComments : Bool

/-- Modelled from the spec: attribute names allowed for a tag are the
tag-specific entry plus the global (wildcard `*`) entry of the allowed
attributes mapping (spec 4.1). -/
def allowedAttrsFor (cfg : CleanConfig) (tag : String) : List String :=
  ((cfg.attributes.find? (fun kv => kv.1 == tag)).map (fun kv => kv.2)).getD []
    ++ ((cfg.attributes.find? (fun kv => kv.1 == "*")).map (fun kv => kv.2)).getD []

/-- Modelled from the spec: the attributes that semantically carry a URL
(a link/source target, spec 4.1). -/
def urlAttrNames : List String := ["href", "src"]

/-- Lowercase a string character-wise. -/
def lowerStr (s : String) : String := String.mk (s.data.map Char.toLower)

/-- Modelled from the spec: the URL scheme of an attribute value — absent
for a relative URL, else the (lowercased) part before the first colon. -/
def schemeOf (v : String) : Option String :=
  if v.data.contains ':' then
    some (lowerStr (String.mk (v.data.takeWhile (fun c => c != ':'))))
  else none

/-- Modelled from the spec: a URL-carrying attribute is kept only if its
scheme is absent or in the allowed-protocol set, case-insensitively. -/
def schemeOk (cfg : CleanConfig) (v : String) : Bool :=
  match schemeOf v with
  | none => true
  | some s => (cfg.protocols.map lowerStr).contains s

/-- Split a character list on a separator character. -/
def splitChar (sep : Char) : List Char → List Char → List (List Char)
  | [], acc => [acc.reverse]
  | c :: rest, acc =>
    if c == sep then acc.reverse :: splitChar sep rest []
    else splitChar sep rest (c :: acc)

/-- Strip leading and trailing whitespace from a character list. -/
def trimChar (l : List Char) : List Char :=
  ((l.dropWhile Char.isWhitespace).reverse.dropWhile Char.isWhitespace).reverse

/-- Modelled from the spec: for a retained style attribute, keep only
declarations whose property name is in the allowed-style set (spec 4.1). -/
def filterStyles (cfg : CleanConfig) (v : String) : String :=
  String.intercalate ";"
    (((splitChar ';' v.data []).filter (fun decl =>
      cfg.styles.contains (String.mk (trimChar (decl.takeWhile (fun c => c != ':')))))).map
      String.mk)

/-- Modelled from the spec: the per-element attribute filter — keep only
names in the tag-specific ∪ global allowed set; drop URL-carrying
attributes with a disallowed scheme; keep of a style attribute only the
allowed declarations, dropping the attribute when nothing remains. -/
def filterAttrs (cfg : CleanConfig) (tag : String) (attrs : Attrs) : Attrs :=
  attrs.filterMap (fun kv =>
    if !(allowedAttrsFor cfg tag).contains kv.1 then none
    else if urlAttrNames.contains kv.1 && !schemeOk cfg kv.2 then none
    else if kv.1 == "style" then
      let kept := filterStyles cfg kv.2
      if kept == "" then none else some (kv.1, kept)
    else some kv)

/-- The decision recorded for an open tag, mirrored at its close
(spec 4.1: "stack-tracked"). -/
inductive SanDecision where
  | keep
  | strip
  | escapeTag (tag : String)

/-- Modelled from the spec: the literal text a disallowed element is
escaped to (the serializer escapes text on output, so emitting the markup
as a chars token renders it inert). -/
def escapeTagText (tag : String) (attrs : Attrs) : String :=
  "<" ++ tag ++ (String.join (attrs.map (fun kv => " " ++ kv.1 ++ "=\"" ++ kv.2 ++ "\"")))
    ++ ">"

/-- Modelled from the spec: one step of the sanitizing filter
(spec 4.1): comments pass or are dropped; text passes; an allowed open tag
is emitted with filtered attributes and `keep` pushed; a disallowed open
tag is stripped or escaped to literal text; a close tag mirrors the
decision pushed at its open. -/
def sanitizeStep (cfg : CleanConfig) (stack : List SanDecision) (ev : SEvent) :
    List SanDecision × List SEvent :=
  match ev with
  | .comment s => (stack, if cfg.stripComments then [] else [.comment s])
  | .chars s => (stack, [.chars s])
  | .startTag t attrs =>
    if cfg.tags.contains t then
      (.keep :: stack, [.startTag t (filterAttrs cfg t attrs)])
    else if cfg.strip then
      (.strip :: stack, [])
    else
      (.escapeTag t :: stack, [.chars (escapeTagText t attrs)])
  | .endTag t =>
    match stack with
    | [] => ([], [])
    | .keep :: rest => (rest, [.endTag t])
    | .strip :: rest => (rest, [])
    | .escapeTag t' :: rest => (rest, [.chars ("</" ++ t' ++ ">")])

/-- Modelled from the spec: the sanitizing filter over an event stream,
threading the open/close decision stack. -/
def sanitizeEvents (cfg : CleanConfig) : List SEvent → List SanDecision → List SEvent
  | [], _ => []
  | ev :: rest, stack =>
    let r := sanitizeStep cfg stack ev
    r.2 ++ sanitizeEvents cfg rest r.1

/-- The external collaborators of `Cleaner.clean` (src 155-166): the
fragment parser combined with the tree walker (producing the event
stream), and the serializer. -/
structure CleanEnv where
  parse : String → List SEvent
  serialize : List SEvent → String

/-- Cleaner.clean (src 168-201) with the default empty extra-filter list:
empty input short-circuits to `''` (src 176-177); otherwise the parsed
event stream is run through the sanitizing filter and serialized. -/
def clean (env : CleanEnv) (cfg : CleanConfig) (text : String) : String :=
  if text = "" then ""
  else env.serialize (sanitizeEvents cfg (env.parse text) [])

/-- The event stream `clean` feeds to the serializer; start-tag events are
the only events the serializer renders as structural markup (chars are
escaped on output, spec section 6). -/
def cleanStream (env : CleanEnv) (cfg : CleanConfig) (text : String) : List SEvent :=
  sanitizeEvents cfg (env.parse text) []

/-- Every attribute surviving the attribute filter has an allowed name, and
a surviving URL-carrying attribute has an allowed (or absent) scheme. -/
theorem filterAttrs_sound (cfg : CleanConfig) (t : String) (attrs : Attrs) (kv : String × String)
    (h : kv ∈ filterAttrs cfg t attrs) :
    (allowedAttrsFor cfg t).contains kv.1 = true ∧
      (kv.1 ∈ urlAttrNames → schemeOk cfg kv.2 = true) := by
  unfold filterAttrs at h
  obtain ⟨x, _, hx⟩ := List.mem_filterMap.mp h
  by_cases h1 : (!(allowedAttrsFor cfg t).contains x.1) = true
  · rw [if_pos h1] at hx
    cases hx
  · rw [if_neg h1] at hx
    have hall : (allowedAttrsFor cfg t).contains x.1 = true := by
      simpa using h1
    by_cases h2 : (urlAttrNames.contains x.1 && !schemeOk cfg x.2) = true
    · rw [if_pos h2] at hx
      cases hx
    · rw [if_neg h2] at hx
      by_cases h3 : (x.1 == "style") = true
      · rw [if_pos h3] at hx
        by_cases h4 : (filterStyles cfg x.2 == "") = true
        · rw [if_pos h4] at hx
          cases hx
        · rw [if_neg h4] at hx
          obtain ⟨rfl⟩ : kv = (x.1, filterStyles cfg x.2) := by
            cases hx
            rfl
          refine ⟨hall, ?_⟩
          intro hurl
          have hx1 : x.1 = "style" := by simpa using h3
          rw [hx1] at hurl
          simp [urlAttrNames] at hurl
      · rw [if_neg h3] at hx
        cases hx
        refine ⟨hall, ?_⟩
        intro hurl
        have hcont : urlAttrNames.contains kv.1 = true := by
          simpa [List.contains, List.elem_iff] using hurl
        rw [hcont] at h2
        simpa using h2

/-- Soundness of the sanitizing filter over any stream and decision stack:
every start tag it emits is whitelisted and carries only filtered
attributes. -/
theorem sanitizeEvents_sound (cfg : CleanConfig) (t : String) (attrs : Attrs) :
    ∀ (evs : List SEvent) (stack : List SanDecision),
      SEvent.startTag t attrs ∈ sanitizeEvents cfg evs stack →
      cfg.tags.contains t = true ∧
        ∀ kv ∈ attrs, (allowedAttrsFor cfg t).contains kv.1 = true ∧
          (kv.1 ∈ urlAttrNames → schemeOk cfg kv.2 = true) := by
  intro evs
  induction evs with
  | nil =>
    intro stack h
    simp [sanitizeEvents] at h
  | cons ev rest ih =>
    intro stack h
    simp only [sanitizeEvents] at h
    rcases List.mem_append.mp h with hin | hin
    · -- emitted by this step
      cases ev with
      | comment s =>
        by_cases hsc : cfg.stripComments = true <;>
          simp [sanitizeStep, hsc] at hin
      | chars s =>
        simp [sanitizeStep] at hin
      | startTag t' a' =>
        simp only [sanitizeStep] at hin
        by_cases htag : cfg.tags.contains t' = true
        · rw [if_pos htag] at hin
          rw [List.mem_singleton] at hin
          injection hin with h1 h2
          subst h1
          subst h2
          exact ⟨htag, fun kv hkv => filterAttrs_sound cfg t a' kv hkv⟩
        · rw [if_neg htag] at hin
          by_cases hstrip : cfg.strip = true
          · rw [if_pos hstrip] at hin
            simp at hin
          · rw [if_neg hstrip] at hin
            simp at hin
      | endTag t' =>
        cases stack with
        | nil => simp [sanitizeStep] at hin
        | cons d rest' => cases d <;> simp [sanitizeStep] at hin
    · exact ih _ hin

/-- Claim C1: whitelist soundness of clean.  Every start-tag event in the
stream `clean` hands to the serializer has a whitelisted tag, every
attribute name on it is allowed for that tag, and every `href`/`src`-like
attribute's scheme, when present, is in the allowed protocols.  (Chars
events are escaped by the serializer, so start tags are the only events
rendered as structural markup.) -/
theorem c1_whitelist_sound (env : CleanEnv) (cfg : CleanConfig) (text : String)
    (t : String) (attrs : Attrs)
    (hmem : SEvent.startTag t attrs ∈ cleanStream env cfg text) :
    cfg.tags.contains t = true ∧
      ∀ kv ∈ attrs, (allowedAttrsFor cfg t).contains kv.1 = true ∧
        (kv.1 ∈ urlAttrNames → schemeOk cfg kv.2 = true) :=
  sanitizeEvents_sound cfg t attrs (env.parse text) [] hmem

/-- A concrete environment and configuration for the C1 witness: the parse
of `<a href="http://x" onclick="evil()">hi</a><script>bad()</script>`. -/
def envC1 : CleanEnv :=
  { parse := fun _ =>
      [.startTag "a" [("href", "http://x"), ("onclick", "evil()")],
       .chars "hi", .endTag "a", .startTag "script" [], .chars "bad()",
       .endTag "script"]
    serialize := fun _ => "" }

/-- The default whitelist configuration (src 22-45, bleach.ALLOWED_*). -/
def cfgC1 : CleanConfig :=
  { tags := ["a", "abbr", "acronym", "b", "blockquote", "code", "em", "i", "li",
      "ol", "strong", "ul"]
    attributes := [("a", ["href", "title"]), ("abbr", ["title"]), ("acronym", ["title"])]
    styles := []
    protocols := ["http", "https", "mailto"]
    strip := false
    stripComments := true }

/-- Witness for c1_whitelist_sound: the surviving anchor start tag of the
concrete stream satisfies the whitelist conditions. -/
theorem c1_whitelist_sound_witness :
    cfgC1.tags.contains "a" = true ∧
      ∀ kv ∈ [("href", "http://x")], (allowedAttrsFor cfgC1 "a").contains kv.1 = true ∧
        (kv.1 ∈ urlAttrNames → schemeOk cfgC1 kv.2 = true) :=
  c1_whitelist_sound envC1 cfgC1 "in" "a" [("href", "http://x")] (by decide)

/-- Claim C9: empty input short-circuits both clean (src 176-177) and
linkify (src 288-289) to the empty string, for every collaborator
environment, configuration, callback chain and fuel — in particular
without consulting the parser, filter or walk. -/
theorem c9_empty_input (cenv : CleanEnv) (cfg : CleanConfig) (lenv : LinkifyEnv)
    (cbs : List Callback) (opts : LinkifyOpts) (fuel : Nat) :
    clean cenv cfg "" = "" ∧ linkify lenv cbs opts fuel "" = "" := by
  constructor <;> rfl
